import Mathlib

/-!
# Pawdopt server: shallow embedding and verification

This file embeds the core logic of the pawdopt-server repository in Lean 4
and proves (or refutes) the specification claims about it.

Embedding conventions:
* JS numbers used as counters/ids are embedded as `Nat`; timestamps as `Int`
  (milliseconds since epoch), so `new Date() - 24h` style arithmetic is exact.
* Opaque structured JSON documents that the core never inspects
  (colors/photos/videos/contact/attributes/environment) are embedded as an
  opaque type `Doc`.
* The `breeds` JSONB column, which the Cleanup worker *does* inspect, is
  embedded as an ordered association list `List (String × JVal)` - a JS
  object is its ordered list of own enumerable entries, which is exactly
  what `Object.entries` traverses.
* Fallible paths return `Except`; database tables are `List` values and
  Redis-style caches are functions to `Option`.
-/

namespace Pawdopt

/-- A JSON scalar as it appears in the `breeds` document
(`{primary: "Lab", secondary: null, mixed: true, ...}`).
`jsToString` mirrors the JS `String(v)` coercion used by `normalizeBreed`. -/
inductive JVal where
  | str (s : String)
  | boolean (b : Bool)
  | null
deriving DecidableEq, Repr

/-- JS `String(v)` for the scalar values occurring in `breeds`. -/
def jsToString : JVal → String
  | .str s => s
  | .boolean true => "true"
  | .boolean false => "false"
  | .null => "null"

/-- Opaque structured document (colors/photos/videos/contact/attributes/
environment). The core logic copies these wholesale and never inspects
them, so they are embedded as an opaque token. -/
def Doc : Type := Nat

instance : DecidableEq Doc := inferInstanceAs (DecidableEq Nat)
instance : Repr Doc := inferInstanceAs (Repr Nat)
instance : OfNat Doc n := inferInstanceAs (OfNat Nat n)

/-- A row of the `AnimalWithVideo` table (prisma/migrations: integer primary
key `id`, scalar text columns, JSONB documents, `lastSeenAt` timestamp). -/
structure AnimalRec where
  id : Nat
  name : String
  url : String
  type : String
  age : String
  gender : String
  size : String
  status : String
  breeds : List (String × JVal)
  colors : Doc
  photos : Doc
  videos : Doc
  contact : Doc
  attributes : Doc
  environment : Doc
  city : String
  state : String
  likeCount : Nat
  lastSeenAt : Int
deriving DecidableEq, Repr

/-- The body of a per-id upstream detail fetch (`response.data.animal`),
restricted to the fields the refresh workers copy into the store. -/
structure AnimalData where
  name : String
  url : String
  type : String
  age : String
  gender : String
  size : String
  status : String
  breeds : List (String × JVal)
  colors : Doc
  photos : Doc
  videos : Doc
  contact : Doc
  attributes : Doc
  environment : Doc
  city : String
  state : String
deriving DecidableEq, Repr

/-! ## C1: the call governor (src/api/utils/apiTracker.js) -/

/-- `API_DAILY_LIMIT` from src/api/utils/apiTracker.js line 7. -/
def API_DAILY_LIMIT : Nat := 989

/-- Result of one guarded call: the breaker tripped, the wrapped request
threw, or the request succeeded. -/
inductive GovResult (ε α : Type) where
  | budgetExceeded
  | requestFailed (e : ε)
  | ok (a : α)
deriving DecidableEq, Repr

/-- Observable outcome of `makeApiCallWithCount`: the value returned or
thrown, the daily counter afterwards, and whether the wrapped
`requestFunction` was invoked at all (i.e. whether network I/O happened). -/
structure GovOutcome (ε α : Type) where
  result : GovResult ε α
  count : Nat
  invoked : Bool
deriving DecidableEq, Repr

/-- `makeApiCallWithCount` (src/api/utils/apiTracker.js lines 17-48).
`count` is today's `CallBudgetCounter` read from Redis (`0` when the key is
absent); `request` is the outcome the wrapped request function would
produce if invoked. The code checks the counter first and throws without
calling `requestFunction` when it is at or above the limit; otherwise it
invokes the request and increments the counter only after a success (a
thrown request propagates before `redis.incr`). The 24h key expiry set on
the 0→1 transition is the per-day scoping of the counter, which the
embedding carries in the premise that `count` is today's value. -/
def makeApiCallWithCount {ε α : Type} (count : Nat) (request : Except ε α) :
    GovOutcome ε α :=
  if API_DAILY_LIMIT ≤ count then
    { result := .budgetExceeded, count := count, invoked := false }
  else
    match request with
    | .error e => { result := .requestFailed e, count := count, invoked := true }
    | .ok a => { result := .ok a, count := count + 1, invoked := true }

/-- The daily counter after a whole day's sequence of guarded calls,
starting from the fresh-key value `0`. -/
def dayCount {ε α : Type} (requests : List (Except ε α)) : Nat :=
  requests.foldl (fun c request => (makeApiCallWithCount c request).count) 0

theorem makeApiCallWithCount_count_le {ε α : Type} (c : Nat)
    (request : Except ε α) (hc : c ≤ API_DAILY_LIMIT) :
    (makeApiCallWithCount c request).count ≤ API_DAILY_LIMIT := by
  unfold makeApiCallWithCount
  by_cases h : API_DAILY_LIMIT ≤ c
  · simpa [h] using hc
  · cases request <;> simp [h] <;> omega

theorem dayCount_le_aux {ε α : Type} (requests : List (Except ε α)) :
    ∀ c, c ≤ API_DAILY_LIMIT →
      requests.foldl (fun c request => (makeApiCallWithCount c request).count) c
        ≤ API_DAILY_LIMIT := by
  induction requests with
  | nil => intro c hc; simpa using hc
  | cons request rest ih =>
      intro c hc
      simpa using ih _ (makeApiCallWithCount_count_le c request hc)

/-- C1. The governor's guarded call: at or above the daily limit it fails
with BudgetExceeded and never invokes the wrapped request; below the limit
it invokes the request and increments the counter exactly on success; and
over any day-long sequence of guarded calls the counter (count of
successfully executed calls) never exceeds the configured limit. -/
theorem governor_budget_invariant {ε α : Type} :
    (∀ (c : Nat) (request : Except ε α), API_DAILY_LIMIT ≤ c →
        (makeApiCallWithCount c request).result = .budgetExceeded ∧
        (makeApiCallWithCount c request).invoked = false ∧
        (makeApiCallWithCount c request).count = c) ∧
    (∀ (c : Nat) (request : Except ε α), c < API_DAILY_LIMIT →
        (makeApiCallWithCount c request).invoked = true ∧
        (∀ a : α, request = .ok a →
          (makeApiCallWithCount c request).result = .ok a ∧
          (makeApiCallWithCount c request).count = c + 1) ∧
        (∀ e : ε, request = .error e →
          (makeApiCallWithCount c request).result = .requestFailed e ∧
          (makeApiCallWithCount c request).count = c)) ∧
    (∀ requests : List (Except ε α), dayCount requests ≤ API_DAILY_LIMIT) := by
  refine ⟨?_, ?_, ?_⟩
  · intro c request hc
    simp [makeApiCallWithCount, hc]
  · intro c request hc
    have hlt : ¬ API_DAILY_LIMIT ≤ c := by omega
    refine ⟨?_, ?_, ?_⟩
    · cases request <;> simp [makeApiCallWithCount, hlt]
    · intro a ha; subst ha; simp [makeApiCallWithCount, hlt]
    · intro e he; subst he; simp [makeApiCallWithCount, hlt]
  · intro requests
    exact dayCount_le_aux requests 0 (Nat.zero_le _)

/-- Witness for C1 at concrete inputs: with the counter at the limit a call
is rejected without invocation, and below the limit it executes. -/
theorem governor_budget_invariant_witness :
    (makeApiCallWithCount 989 (Except.ok 7 : Except Unit Nat)).result
        = .budgetExceeded ∧
    (makeApiCallWithCount 989 (Except.ok 7 : Except Unit Nat)).invoked = false ∧
    (makeApiCallWithCount 0 (Except.ok 7 : Except Unit Nat)).invoked = true ∧
    dayCount [(Except.ok 7 : Except Unit Nat)] ≤ API_DAILY_LIMIT := by
  obtain ⟨h1, h2, h3⟩ := governor_budget_invariant (ε := Unit) (α := Nat)
  obtain ⟨ha, hb, hc⟩ := h1 989 (Except.ok 7) (by decide)
  obtain ⟨hd, he, hf⟩ := h2 0 (Except.ok 7) (by decide)
  exact ⟨ha, hb, hd, h3 [Except.ok 7]⟩

/-! ## C6: the Janitor (src/janitor-worker.js) -/

/-- The Janitor staleness threshold: 24 hours in milliseconds
(src/janitor-worker.js line 10, `24 * 60 * 60 * 1000`). -/
def JANITOR_STALE_MS : Int := 24 * 60 * 60 * 1000

/-- `pruneStaleAnimals` (src/janitor-worker.js lines 9-34): delete every
`AnimalWithVideo` row whose `lastSeenAt` is strictly before
`now − 24h`; i.e. keep exactly the rows with `¬(lastSeenAt < now − 24h)`.
(The deep-refresh worker's variant of the same sweep uses a 25h cutoff and
additionally removes unreferenced organizations; the Janitor threshold the
claim refers to is this 24h one.) -/
def pruneStaleAnimals (now : Int) (store : List AnimalRec) : List AnimalRec :=
  store.filter (fun r => !(decide (r.lastSeenAt < now - JANITOR_STALE_MS)))

/-- C6. After a Janitor run at time `now`: every surviving record satisfies
`now − lastSeenAt ≤ threshold`; every record strictly older than the
threshold is absent; and every record at or newer than the threshold is
kept (not deleted by that run). -/
theorem janitor_staleness_bound (now : Int) (store : List AnimalRec) :
    (∀ r ∈ pruneStaleAnimals now store,
        now - r.lastSeenAt ≤ JANITOR_STALE_MS) ∧
    (∀ r ∈ store, r.lastSeenAt < now - JANITOR_STALE_MS →
        r ∉ pruneStaleAnimals now store) ∧
    (∀ r ∈ store, now - JANITOR_STALE_MS ≤ r.lastSeenAt →
        r ∈ pruneStaleAnimals now store) := by
  refine ⟨?_, ?_, ?_⟩
  · intro r hr
    have := List.of_mem_filter hr
    simp only [Bool.not_eq_true', decide_eq_false_iff_not, not_lt] at this
    omega
  · intro r _ hlt hmem
    have := List.of_mem_filter hmem
    simp only [Bool.not_eq_true', decide_eq_false_iff_not, not_lt] at this
    omega
  · intro r hr hge
    refine List.mem_filter.mpr ⟨hr, ?_⟩
    simp only [Bool.not_eq_true', decide_eq_false_iff_not, not_lt]
    omega

/-- A concrete janitor record for witnesses/counterexamples. -/
def sampleRec (i : Nat) (seen : Int) : AnimalRec :=
  { id := i, name := "", url := "", type := "", age := "", gender := "",
    size := "", status := "", breeds := [], colors := 0, photos := 0,
    videos := 0, contact := 0, attributes := 0, environment := 0,
    city := "", state := "", likeCount := 0, lastSeenAt := seen }

/-- Witness for C6 at a concrete store: a record 25h old is pruned, a
record 1h old survives, at `now = 100·h` (h in ms). -/
theorem janitor_staleness_bound_witness :
    sampleRec 1 (75 * 3600000) ∉
        pruneStaleAnimals (100 * 3600000)
          [sampleRec 1 (75 * 3600000), sampleRec 2 (99 * 3600000)] ∧
    sampleRec 2 (99 * 3600000) ∈
        pruneStaleAnimals (100 * 3600000)
          [sampleRec 1 (75 * 3600000), sampleRec 2 (99 * 3600000)] := by
  obtain ⟨h1, h2, h3⟩ := janitor_staleness_bound (100 * 3600000)
    [sampleRec 1 (75 * 3600000), sampleRec 2 (99 * 3600000)]
  refine ⟨h2 _ (by simp) (by norm_num [sampleRec, JANITOR_STALE_MS]), ?_⟩
  exact h3 _ (by simp) (by norm_num [sampleRec, JANITOR_STALE_MS])

/-! ## C5 / C9 / C10: session playlist pagination (src/api/videos.js,
src/index.js PATH 1)

The handler's session path reads the materialized id list stored under
`session:<sessionId>` (absent once the 2h TTL has expired), slices it with
`animalIds.slice((page-1)*PAGE_SIZE, page*PAGE_SIZE)`, resolves the slice
against the Durable Store with `findMany(id in pageIds)`, and re-orders the
rows by `pageIds.map(id => animalsData.find(...)).filter(Boolean)`.
The source fixes `PAGE_SIZE = 10`; it is kept as an explicit argument so
the spec's Scenario C (page size 2) is expressible, with `page ≥ 1` as in
any client request. -/

instance {ε α : Type} [DecidableEq ε] [DecidableEq α] :
    DecidableEq (Except ε α) := fun x y =>
  match x, y with
  | .error a, .error b =>
      if h : a = b then .isTrue (h ▸ rfl)
      else .isFalse (fun hc => h (Except.error.inj hc))
  | .ok a, .ok b =>
      if h : a = b then .isTrue (h ▸ rfl)
      else .isFalse (fun hc => h (Except.ok.inj hc))
  | .error _, .ok _ => .isFalse (fun hc => Except.noConfusion hc)
  | .ok _, .error _ => .isFalse (fun hc => Except.noConfusion hc)

/-- `PAGE_SIZE` of src/api/videos.js line 61. -/
def PAGE_SIZE : Nat := 10

/-- The one session-path error: the Redis key is gone (TTL expired or never
existed), surfaced as the 404 "Session expired. Please refresh." -/
inductive PageError where
  | sessionExpired
deriving DecidableEq, Repr

/-- A successful page response: the resolved animal rows in playlist order,
the SeenMark rows `(internal user id, animal id)` appended to the seen
table while serving this page, and the pagination echo. -/
structure PageOk where
  animals : List AnimalRec
  seenWrites : List (Nat × Nat)
  currentPage : Nat
  totalPages : Nat
  sessionId : String
deriving DecidableEq, Repr

/-- The session playlist cache: sessionId → stored ordered id list, `none`
once expired/absent. -/
def SessionCache : Type := String → Option (List Nat)

/-- `animalIds.slice((page-1)*pageSize, page*pageSize)` for `page ≥ 1`. -/
def slicePage (l : List Nat) (page pageSize : Nat) : List Nat :=
  (l.drop ((page - 1) * pageSize)).take pageSize

/-- The session-pagination branch of the `/api/videos` handler
(src/api/videos.js lines 70-100). Serving a page performs no SeenMark
writes in this handler (`seenWrites := []` on both exits: no call to any
seen-marking helper appears in the source of this path), and never invokes
the feed assembler: the response is computed from the stored list alone. -/
def videosSessionPage (store : List AnimalRec) (sessions : SessionCache)
    (sid : String) (page : Nat) (pageSize : Nat) : Except PageError PageOk :=
  match sessions sid with
  | none => .error .sessionExpired
  | some animalIds =>
      let totalPages := (animalIds.length + pageSize - 1) / pageSize
      let pageIds := slicePage animalIds page pageSize
      if pageIds.isEmpty then
        .ok { animals := [], seenWrites := [], currentPage := page,
              totalPages := totalPages, sessionId := sid }
      else
        let animalsData := store.filter (fun a => pageIds.contains a.id)
        let orderedAnimals :=
          pageIds.filterMap (fun i => animalsData.find? (fun a => a.id == i))
        .ok { animals := orderedAnimals, seenWrites := [], currentPage := page,
              totalPages := totalPages, sessionId := sid }

theorem find?_filter_contains (store : List AnimalRec) (ids : List Nat)
    (i : Nat) (hi : i ∈ ids) :
    (store.filter (fun a => ids.contains a.id)).find? (fun a => a.id == i)
      = store.find? (fun a => a.id == i) := by
  simp only [List.find?_filter]
  congr 1
  funext a
  by_cases hai : a.id = i
  · simp [hai, hi]
  · simp [hai]

theorem filterMap_find?_ids (store : List AnimalRec) (ids : List Nat) :
    (ids.filterMap (fun i => store.find? (fun a => a.id == i))).map AnimalRec.id
      = ids.filter (fun i => (store.find? (fun a => a.id == i)).isSome) := by
  induction ids with
  | nil => rfl
  | cons i rest ih =>
      cases hf : store.find? (fun a => a.id == i) with
      | none => simp [List.filterMap_cons, hf, List.filter_cons, ih]
      | some a =>
          have ha : a.id = i := by
            have := List.find?_some hf
            simpa using this
          simp [List.filterMap_cons, hf, List.filter_cons, ih, ha]

/-- Core characterization of a served session page: the request succeeds
and the animal ids are the stored slice filtered to ids still resolvable
in the store, in stored order, with the pagination echo. -/
theorem videosSessionPage_ok_spec (store : List AnimalRec)
    (sessions : SessionCache) (sid : String) (page pageSize : Nat)
    (L : List Nat) (hL : sessions sid = some L) :
    ∃ o, videosSessionPage store sessions sid page pageSize = .ok o ∧
      o.animals.map AnimalRec.id
        = (slicePage L page pageSize).filter
            (fun i => (store.find? (fun a => a.id == i)).isSome) ∧
      o.animals.length ≤ pageSize ∧
      o.seenWrites = [] ∧ o.currentPage = page ∧ o.sessionId = sid ∧
      o.totalPages = (L.length + pageSize - 1) / pageSize := by
  unfold videosSessionPage
  rw [hL]
  simp only
  by_cases hempty : (slicePage L page pageSize).isEmpty
  · rw [if_pos hempty]
    rw [List.isEmpty_iff] at hempty
    exact ⟨_, rfl, by simp [hempty], by simp, rfl, rfl, rfl, rfl⟩
  · rw [if_neg hempty]
    refine ⟨_, rfl, ?_, ?_, rfl, rfl, rfl, rfl⟩
    · have hcongr :
          (slicePage L page pageSize).filterMap
              (fun i => (store.filter
                  (fun a => (slicePage L page pageSize).contains a.id)).find?
                (fun a => a.id == i))
            = (slicePage L page pageSize).filterMap
                (fun i => store.find? (fun a => a.id == i)) :=
        List.filterMap_congr (fun i hi => find?_filter_contains store _ i hi)
      simp only [hcongr]
      exact filterMap_find?_ids store _
    · calc ((slicePage L page pageSize).filterMap _).length
          ≤ (slicePage L page pageSize).length := List.length_filterMap_le _ _
        _ ≤ pageSize := List.length_take_le _ _

/-- C10. Ids of the stored slice that no longer resolve to a row in the
store (deleted since session creation) are silently dropped: the served
page is a success whose animal ids are exactly the stored slice filtered
to the ids still present, in the stored order, and the page may hold fewer
than `pageSize` items without being an error. -/
theorem session_page_drops_missing_ids (store : List AnimalRec)
    (sessions : SessionCache) (sid : String) (page pageSize : Nat)
    (L : List Nat) (hL : sessions sid = some L) (hpage : 1 ≤ page) :
    ∃ o, videosSessionPage store sessions sid page pageSize = .ok o ∧
      o.animals.map AnimalRec.id
        = (slicePage L page pageSize).filter
            (fun i => (store.find? (fun a => a.id == i)).isSome) ∧
      o.animals.length ≤ pageSize := by
  obtain ⟨o, h1, h2, h3, -⟩ :=
    videosSessionPage_ok_spec store sessions sid page pageSize L hL
  exact ⟨o, h1, h2, h3⟩

/-- Concrete session data for Scenario C: stored id list [5,3,9,1]. -/
def demoSessions : SessionCache :=
  fun s => if s = "s" then some [5, 3, 9, 1] else none

/-- A store resolving all four ids of the demo session. -/
def demoStore : List AnimalRec :=
  [sampleRec 5 0, sampleRec 3 0, sampleRec 9 0, sampleRec 1 0]

/-- The demo store with id 9 deleted since session creation. -/
def demoStore2 : List AnimalRec := [sampleRec 5 0, sampleRec 3 0, sampleRec 1 0]

/-- Witness for C10: serving page 2 of stored list [5,3,9,1] (slice [9,1])
against a store from which id 9 was deleted returns a success holding just
id 1. -/
theorem session_page_drops_missing_ids_witness :
    (videosSessionPage demoStore2 demoSessions "s" 2 2).map
        (fun o => o.animals.map AnimalRec.id) = Except.ok [1] := by
  obtain ⟨o, h1, h2, h3⟩ := session_page_drops_missing_ids demoStore2
    demoSessions "s" 2 2 [5, 3, 9, 1] (by decide) (by decide)
  rw [h1]
  simp only [Except.map]
  rw [h2]
  exact congrArg Except.ok (by decide)

/-- C5. Pagination only slices the materialized list: for a live session
storing `L`, the served page's ids are exactly `L[(page-1)·S .. page·S)`
in the stored order whenever the slice ids all resolve (the handler never
invokes the feed assembler: `videosSessionPage` is a function of the
stored list alone, so page ordering is stable for the session lifetime);
Scenario C: `L=[5,3,9,1]`, `S=2` gives page 1 = [5,3] and page 2 = [9,1];
and once the TTL has expired (session key absent), any page request fails
with SessionExpired. -/
theorem session_pagination_stable (store : List AnimalRec)
    (sessions : SessionCache) (sid : String) (page pageSize : Nat)
    (L : List Nat) (hL : sessions sid = some L) (hpage : 1 ≤ page)
    (hall : ∀ i ∈ slicePage L page pageSize,
        (store.find? (fun a => a.id == i)).isSome) :
    (∃ o, videosSessionPage store sessions sid page pageSize = .ok o ∧
        o.animals.map AnimalRec.id = slicePage L page pageSize ∧
        o.currentPage = page ∧ o.sessionId = sid) ∧
    (videosSessionPage demoStore demoSessions "s" 1 2).map
        (fun o => o.animals.map AnimalRec.id) = Except.ok [5, 3] ∧
    (videosSessionPage demoStore demoSessions "s" 2 2).map
        (fun o => o.animals.map AnimalRec.id) = Except.ok [9, 1] ∧
    (∀ (store' : List AnimalRec) (sessions' : SessionCache) (sid' : String)
        (p s : Nat), sessions' sid' = none →
        videosSessionPage store' sessions' sid' p s
          = .error .sessionExpired) := by
  refine ⟨?_, by decide, by decide, ?_⟩
  · obtain ⟨o, h1, h2, -, -, h4, h5, -⟩ :=
      videosSessionPage_ok_spec store sessions sid page pageSize L hL
    refine ⟨o, h1, ?_, h4, h5⟩
    rw [h2]
    exact List.filter_eq_self.mpr (fun i hi => hall i hi)
  · intro store' sessions' sid' p s hnone
    unfold videosSessionPage
    rw [hnone]

/-- C9. A page request past the end of an existing session's stored list
does not fail: the handler returns a well-formed success with an empty
items list, no seen-table writes, pagination echoing the requested page
and sessionId, and the unchanged total page count, which is the source's
`Math.ceil` formula `(n + S - 1) / S = ⌈n/S⌉` for `S > 0`. -/
theorem session_page_beyond_end (store : List AnimalRec)
    (sessions : SessionCache) (sid : String) (page pageSize : Nat)
    (L : List Nat) (hL : sessions sid = some L) (hpage : 1 ≤ page)
    (hS : 0 < pageSize) (hbeyond : L.length ≤ (page - 1) * pageSize) :
    videosSessionPage store sessions sid page pageSize
      = .ok { animals := [], seenWrites := [], currentPage := page,
              totalPages := L.length ⌈/⌉ pageSize, sessionId := sid } := by
  have hdrop : L.drop ((page - 1) * pageSize) = [] :=
    List.drop_eq_nil_of_le hbeyond
  have hempty : (slicePage L page pageSize).isEmpty := by
    simp [slicePage, hdrop]
  have hceil : (L.length + pageSize - 1) / pageSize = L.length ⌈/⌉ pageSize :=
    (Nat.ceilDiv_eq_add_pred_div _ _).symm
  unfold videosSessionPage
  rw [hL]
  simp only
  rw [if_pos hempty, hceil]

/-- Witness for C9: page 3 of the stored list [5,3,9,1] at page size 2
(start index 4 = list length) yields a success with an empty page and the
unchanged total page count 2. -/
theorem session_page_beyond_end_witness :
    videosSessionPage demoStore demoSessions "s" 3 2
      = .ok { animals := [], seenWrites := [], currentPage := 3,
              totalPages := 2, sessionId := "s" } := by
  have h := session_page_beyond_end demoStore demoSessions "s" 3 2 [5, 3, 9, 1]
    (by decide) (by decide) (by decide) (by decide)
  simpa using h

/-- Witness for C5 at concrete inputs: the full demo store serves page 1 of
the stored list [5,3,9,1] with page size 2 as exactly [5,3]. -/
theorem session_pagination_stable_witness :
    (videosSessionPage demoStore demoSessions "s" 1 2).map
        (fun o => o.animals.map AnimalRec.id) = Except.ok [5, 3] := by
  exact (session_pagination_stable demoStore demoSessions "s" 1 2 [5, 3, 9, 1]
    (by decide) (by decide) (by decide)).2.1

/-! ## C4: Dedup/Cleanup worker (src/discovery-worker.js lines 309-396)

`runCleanup` groups `AnimalWithVideo` rows by exact `(name, type)`
(`prisma.groupBy`), keeps only groups of more than one member, re-buckets
each group by `normalizeBreed(record.breeds)`, and for every bucket of
more than one record sorts it ascending by id (`(a, b) => a.id - b.id`),
keeps the first record and deletes the rest (`deleteMany(id in ...)`). -/

/-- Lexicographic strict comparison of character sequences by code point,
which is JS `<` on the (BMP) strings occurring in breed documents. -/
def charListLtb : List Char → List Char → Bool
  | [], [] => false
  | [], _ :: _ => true
  | _ :: _, [] => false
  | a :: as, b :: bs =>
      if a.toNat < b.toNat then true
      else if b.toNat < a.toNat then false
      else charListLtb as bs

/-- JS `a < b` on strings. -/
def jsStringLtb (a b : String) : Bool := charListLtb a.data b.data

/-- JS `s.toLowerCase()` for the strings at hand, character by character. -/
def jsToLower (s : String) : String := String.mk (s.data.map Char.toLower)

/-- JS default `Array.prototype.sort` comparator used by `normalizeBreed`:
without a comparator JS compares elements by their string form, and a
`[k, v]` pair stringifies to `"k,v"`, compared in UTF code-unit order;
`breedPairLe x y` is "x sorts no later than y", i.e. `¬(y < x)`. -/
def breedPairLe (x y : String × String) : Prop :=
  jsStringLtb (y.1 ++ "," ++ y.2) (x.1 ++ "," ++ x.2) = false

instance : DecidableRel breedPairLe := fun x y =>
  inferInstanceAs (Decidable (_ = _))

/-- `normalizeBreed` (src/discovery-worker.js lines 309-324), object case
(the `breeds` column is a JSONB object): lower-case each key and each
`String(value)`, sort the `[k, v]` pairs with the default (stable) JS sort,
and `JSON.stringify` the result. `JSON.stringify` is injective on lists of
string pairs, so comparing stringified keys is comparing these lists;
`List.insertionSort` is stable, like the JS sort. -/
def normalizeBreed (breeds : List (String × JVal)) : List (String × String) :=
  List.insertionSort breedPairLe
    (breeds.map (fun kv => (jsToLower kv.1, jsToLower (jsToString kv.2))))

/-- The `(a, b) => a.id - b.id` comparator of the bucket sort. -/
def idLe (a b : AnimalRec) : Prop := a.id ≤ b.id

instance : DecidableRel idLe := fun x y =>
  inferInstanceAs (Decidable (_ ≤ _))

instance : IsTotal AnimalRec idLe := ⟨fun x y => Nat.le_total x.id y.id⟩

instance : IsTrans AnimalRec idLe := ⟨fun _ _ _ => Nat.le_trans⟩

/-- One `(name, type)` group's member rows (`prisma.findMany` on the
group's name and type). -/
def cleanupMembers (store : List AnimalRec) (g : String × String) :
    List AnimalRec :=
  store.filter (fun r => r.name == g.1 && r.type == g.2)

/-- One breed bucket inside a group (the `buckets` object keyed by
`normalizeBreed(record.breeds)`). -/
def cleanupBucket (store : List AnimalRec) (g : String × String)
    (k : List (String × String)) : List AnimalRec :=
  (cleanupMembers store g).filter (fun r => normalizeBreed r.breeds == k)

/-- Ids deleted out of one bucket: buckets of more than one record are
sorted ascending by id and every record after the first is removed. -/
def cleanupBucketDeleteIds (store : List AnimalRec) (g : String × String)
    (k : List (String × String)) : List Nat :=
  if 1 < (cleanupBucket store g k).length then
    (List.insertionSort idLe (cleanupBucket store g k)).tail.map
      (fun r => r.id)
  else []

/-- Ids deleted out of one `(name, type)` group (only groups with
`_count.id > 1` are examined; bucket keys iterate in first-insertion
order, which only affects the order of `deleteMany` calls, not which ids
are deleted). -/
def cleanupGroupDeleteIds (store : List AnimalRec) (g : String × String) :
    List Nat :=
  if 1 < (cleanupMembers store g).length then
    (((cleanupMembers store g).map (fun r => normalizeBreed r.breeds)).dedup).flatMap
      (cleanupBucketDeleteIds store g)
  else []

/-- All ids `runCleanup` deletes in one pass. -/
def cleanupDeleteIds (store : List AnimalRec) : List Nat :=
  ((store.map (fun r => (r.name, r.type))).dedup).flatMap
    (cleanupGroupDeleteIds store)

/-- `runCleanup` (src/discovery-worker.js lines 326-396): the store after
the cleanup pass. -/
def runCleanup (store : List AnimalRec) : List AnimalRec :=
  store.filter (fun r => !((cleanupDeleteIds store).contains r.id))

theorem one_lt_length_of_two_mem {α : Type} {l : List α} {a b : α}
    (ha : a ∈ l) (hb : b ∈ l) (hne : a ≠ b) : 1 < l.length := by
  cases l with
  | nil => simp at ha
  | cons x xs =>
      cases xs with
      | nil =>
          simp only [List.mem_singleton] at ha hb
          exact absurd (ha.trans hb.symm) hne
      | cons y ys => simp only [List.length_cons]; omega

theorem exists_smaller_of_mem_cleanupDeleteIds (store : List AnimalRec)
    (hids : (store.map AnimalRec.id).Nodup) (r : AnimalRec) (hr : r ∈ store)
    (hdel : r.id ∈ cleanupDeleteIds store) :
    ∃ s ∈ store, s.name = r.name ∧ s.type = r.type ∧
      normalizeBreed s.breeds = normalizeBreed r.breeds ∧ s.id < r.id := by
  obtain ⟨g, hg, hdel⟩ := List.mem_flatMap.mp hdel
  rw [cleanupGroupDeleteIds] at hdel
  split_ifs at hdel with hglen
  · obtain ⟨k, hk, hdel⟩ := List.mem_flatMap.mp hdel
    rw [cleanupBucketDeleteIds] at hdel
    split_ifs at hdel with hblen
    · obtain ⟨x, hx_tail, hx_id⟩ := List.mem_map.mp hdel
      have hperm := List.perm_insertionSort idLe (cleanupBucket store g k)
      have hsorted := List.sorted_insertionSort idLe (cleanupBucket store g k)
      cases hsort : List.insertionSort idLe (cleanupBucket store g k) with
      | nil =>
          rw [hsort] at hperm
          have := hperm.length_eq
          simp at this
          omega
      | cons h t =>
          rw [hsort] at hperm hsorted hx_tail
          simp only [List.tail_cons] at hx_tail
          have hx_bucket : x ∈ cleanupBucket store g k :=
            hperm.mem_iff.mp (List.mem_cons_of_mem h hx_tail)
          have hx_members : x ∈ cleanupMembers store g :=
            List.mem_of_mem_filter hx_bucket
          have hx_store : x ∈ store := List.mem_of_mem_filter hx_members
          have hx_eq : x = r := List.inj_on_of_nodup_map hids hx_store hr hx_id
          subst hx_eq
          have hh_bucket : h ∈ cleanupBucket store g k :=
            hperm.mem_iff.mp (List.mem_cons_self h t)
          have hh_members : h ∈ cleanupMembers store g :=
            List.mem_of_mem_filter hh_bucket
          have hh_store : h ∈ store := List.mem_of_mem_filter hh_members
          have hstore_nodup : store.Nodup := hids.of_map
          have hbucket_nodup : (cleanupBucket store g k).Nodup :=
            (hstore_nodup.filter _).filter _
          have hsort_nodup : (h :: t).Nodup :=
            hperm.nodup_iff.mpr hbucket_nodup
          have hne : h ≠ x := fun he =>
            (List.nodup_cons.mp hsort_nodup).1 (he ▸ hx_tail)
          have hle : h.id ≤ x.id := List.rel_of_sorted_cons hsorted x hx_tail
          have hid_ne : h.id ≠ x.id := fun he =>
            hne (List.inj_on_of_nodup_map hids hh_store hx_store he)
          -- the class facts, read off the two filters
          have hx_m := (List.mem_filter.mp hx_members).2
          have hh_m := (List.mem_filter.mp hh_members).2
          have hx_b := (List.mem_filter.mp hx_bucket).2
          have hh_b := (List.mem_filter.mp hh_bucket).2
          simp only [Bool.and_eq_true, beq_iff_eq] at hx_m hh_m hx_b hh_b
          refine ⟨h, hh_store, ?_, ?_, ?_, by omega⟩
          · rw [hh_m.1, hx_m.1]
          · rw [hh_m.2, hx_m.2]
          · rw [hh_b, hx_b]
    · simp at hdel
  · simp at hdel

theorem mem_cleanupDeleteIds_of_smaller (store : List AnimalRec)
    (hids : (store.map AnimalRec.id).Nodup) (r : AnimalRec) (hr : r ∈ store)
    (s : AnimalRec) (hs : s ∈ store) (hname : s.name = r.name)
    (htype : s.type = r.type)
    (hbreed : normalizeBreed s.breeds = normalizeBreed r.breeds)
    (hlt : s.id < r.id) : r.id ∈ cleanupDeleteIds store := by
  have hg : (r.name, r.type) ∈ (store.map (fun x => (x.name, x.type))).dedup :=
    List.mem_dedup.mpr (List.mem_map.mpr ⟨r, hr, rfl⟩)
  have hr_m : r ∈ cleanupMembers store (r.name, r.type) :=
    List.mem_filter.mpr ⟨hr, by simp⟩
  have hs_m : s ∈ cleanupMembers store (r.name, r.type) :=
    List.mem_filter.mpr ⟨hs, by simp [hname, htype]⟩
  have hsr : s ≠ r := fun he => absurd hlt (by rw [he]; omega)
  have hglen : 1 < (cleanupMembers store (r.name, r.type)).length :=
    one_lt_length_of_two_mem hs_m hr_m hsr
  rw [cleanupDeleteIds]
  refine List.mem_flatMap.mpr ⟨(r.name, r.type), hg, ?_⟩
  rw [cleanupGroupDeleteIds, if_pos hglen]
  have hk : normalizeBreed r.breeds ∈
      ((cleanupMembers store (r.name, r.type)).map
        (fun x => normalizeBreed x.breeds)).dedup :=
    List.mem_dedup.mpr (List.mem_map.mpr ⟨r, hr_m, rfl⟩)
  refine List.mem_flatMap.mpr ⟨normalizeBreed r.breeds, hk, ?_⟩
  have hr_b : r ∈ cleanupBucket store (r.name, r.type) (normalizeBreed r.breeds) :=
    List.mem_filter.mpr ⟨hr_m, by simp⟩
  have hs_b : s ∈ cleanupBucket store (r.name, r.type) (normalizeBreed r.breeds) :=
    List.mem_filter.mpr ⟨hs_m, by simp [hbreed]⟩
  have hblen : 1 <
      (cleanupBucket store (r.name, r.type) (normalizeBreed r.breeds)).length :=
    one_lt_length_of_two_mem hs_b hr_b hsr
  rw [cleanupBucketDeleteIds, if_pos hblen]
  have hperm := List.perm_insertionSort idLe
    (cleanupBucket store (r.name, r.type) (normalizeBreed r.breeds))
  have hsorted := List.sorted_insertionSort idLe
    (cleanupBucket store (r.name, r.type) (normalizeBreed r.breeds))
  cases hsort : List.insertionSort idLe
      (cleanupBucket store (r.name, r.type) (normalizeBreed r.breeds)) with
  | nil =>
      rw [hsort] at hperm
      have := hperm.length_eq
      simp at this
      omega
  | cons h t =>
      rw [hsort] at hperm hsorted
      have hr_sort : r ∈ h :: t := hperm.mem_iff.mpr hr_b
      have hs_sort : s ∈ h :: t := hperm.mem_iff.mpr hs_b
      rcases List.mem_cons.mp hr_sort with hrh | hrt
      · exfalso
        rcases List.mem_cons.mp hs_sort with hsh | hst
        · exact hsr (hsh.trans hrh.symm)
        · have : h.id ≤ s.id := List.rel_of_sorted_cons hsorted s hst
          rw [← hrh] at this
          omega
      · simp only [List.tail_cons]
        exact List.mem_map.mpr ⟨r, hrt, rfl⟩

/-- The two Scenario D records: same name/type, breed objects equal up to
key order and letter case, ids 10 and 42. -/
def rexA : AnimalRec :=
  { sampleRec 10 0 with
    name := "Rex"
    type := "Dog"
    breeds := [("primary", JVal.str "Lab"), ("secondary", JVal.str "Mix")] }

/-- See `rexA`: the duplicate with id 42 and permuted, lower-cased breeds. -/
def rexB : AnimalRec :=
  { sampleRec 42 0 with
    name := "Rex"
    type := "Dog"
    breeds := [("secondary", JVal.str "mix"), ("primary", JVal.str "lab")] }

/-- C4. After a Cleanup pass over a store with distinct ids, a record
survives exactly when it has the lowest id of its
(name, type, normalized-breeds) group - so every other record of each
group is deleted; and concretely Scenario D's pair {id 10, id 42}
collapses to the id-10 record. -/
theorem cleanup_dedup_keeps_lowest (store : List AnimalRec)
    (hids : (store.map AnimalRec.id).Nodup) :
    (∀ r ∈ store, (r ∈ runCleanup store ↔
        ∀ s ∈ store, s.name = r.name → s.type = r.type →
          normalizeBreed s.breeds = normalizeBreed r.breeds → r.id ≤ s.id)) ∧
    runCleanup [rexA, rexB] = [rexA] := by
  constructor
  · intro r hr
    rw [runCleanup, List.mem_filter]
    constructor
    · rintro ⟨-, hkeep⟩ s hs hn ht hb
      by_contra hgt
      have hmem := mem_cleanupDeleteIds_of_smaller store hids r hr s hs hn ht hb
        (by omega)
      simp [hmem] at hkeep
    · intro hmin
      refine ⟨hr, ?_⟩
      simp only [Bool.not_eq_true']
      by_contra hcon
      rw [Bool.not_eq_false] at hcon
      have hmem : r.id ∈ cleanupDeleteIds store := by
        simpa using hcon
      obtain ⟨s, hs, hn, ht, hb, hlt⟩ :=
        exists_smaller_of_mem_cleanupDeleteIds store hids r hr hmem
      have := hmin s hs hn ht hb
      omega
  · decide

/-- Witness for C4: the Scenario D store has distinct ids, and applying
the theorem to it yields the collapse to the id-10 record. -/
theorem cleanup_dedup_keeps_lowest_witness :
    runCleanup [rexA, rexB] = [rexA] :=
  (cleanup_dedup_keeps_lowest [rexA, rexB] (by decide)).2

/-! ## C3: targeted revalidation of at-risk records

Two implementations exist in the source: the hourly refresh worker
(src/api/crons/refresh-worker.js lines 90-197, identical in
src/refresh-worker.js), whose batches queue one update per fulfilled
fetch and one delete per 404 and commit them in a single
`prisma.$transaction`; and the deep-refresh worker's Phase 2
(src/deep-refresh-worker.js lines 426-482), which awaits each record
sequentially, updates only `lastSeenAt` on success, and merely logs a 404
without deleting. -/

/-- Settled outcome of one per-id detail fetch
(`Promise.allSettled` element): fulfilled, rejected with HTTP 404, or
rejected with any other error. -/
inductive FetchResult where
  | fulfilled (d : AnimalData)
  | notFound
  | failed
deriving DecidableEq, Repr

/-- The field update `runHourlyRefresh` queues for a fulfilled fetch
(src/api/crons/refresh-worker.js lines 138-160).
`lastSeenAt := now` - Modelled from the spec: the Prisma schema file is
missing from the source tree (only its migrations are present: they make
`lastSeenAt` NOT NULL with no SQL default while `create` calls never
supply it, i.e. Prisma's `@updatedAt`), and the spec states that
successful targeted fetches refresh `lastSeenAt`, so every row update also
bumps `lastSeenAt`. -/
def updateFromData (now : Int) (d : AnimalData) (r : AnimalRec) : AnimalRec :=
  { r with
    name := d.name
    url := d.url
    type := d.type
    age := d.age
    gender := d.gender
    size := d.size
    status := d.status
    breeds := d.breeds
    colors := d.colors
    photos := d.photos
    videos := d.videos
    contact := d.contact
    attributes := d.attributes
    environment := d.environment
    city := d.city
    state := d.state
    lastSeenAt := now }

/-- One Prisma operation queued into `updatePromises`/`deletePromises`. -/
inductive DbOp where
  | update (i : Nat) (d : AnimalData)
  | delete (i : Nat)
deriving DecidableEq, Repr

/-- The id a queued operation acts on (`where: { id: ... }`). -/
def DbOp.targetId : DbOp → Nat
  | .update i _ => i
  | .delete i => i

/-- `updatePromises`: one update per fulfilled fetch, in batch order. -/
def refreshUpdates (batch : List (AnimalRec × FetchResult)) : List DbOp :=
  batch.filterMap (fun p =>
    match p.2 with
    | .fulfilled d => some (.update p.1.id d)
    | _ => none)

/-- `deletePromises`: one delete per 404, in batch order. -/
def refreshDeletes (batch : List (AnimalRec × FetchResult)) : List DbOp :=
  batch.filterMap (fun p =>
    match p.2 with
    | .notFound => some (.delete p.1.id)
    | _ => none)

/-- Effect of one queued operation on the table. -/
def applyDbOp (now : Int) (store : List AnimalRec) : DbOp → List AnimalRec
  | .update i d =>
      store.map (fun r => if r.id = i then updateFromData now d r else r)
  | .delete i => store.filter (fun r => !(r.id == i))

/-- One settled batch of `runHourlyRefresh`
(src/api/crons/refresh-worker.js lines 121-179): the queued updates
followed by the queued deletes, committed together by the single
`prisma.$transaction([...updatePromises, ...deletePromises])`, embedded
as one atomic fold from store to store. Fetches that fail with anything
other than 404 queue nothing. -/
def runHourlyRefreshBatch (now : Int) (store : List AnimalRec)
    (batch : List (AnimalRec × FetchResult)) : List AnimalRec :=
  (refreshUpdates batch ++ refreshDeletes batch).foldl (applyDbOp now) store

theorem applyDbOp_id_preserved (now : Int) (store : List AnimalRec)
    (op : DbOp) (i : Nat) (h : ∀ x ∈ store, x.id ≠ i) :
    ∀ x ∈ applyDbOp now store op, x.id ≠ i := by
  intro x hx
  cases op with
  | update j d =>
      obtain ⟨y, hy, hyx⟩ := List.mem_map.mp hx
      by_cases hji : y.id = j
      · simp only [if_pos hji] at hyx
        rw [← hyx]
        exact hji ▸ h y hy
      · simp only [if_neg hji] at hyx
        exact hyx ▸ h y hy
  | delete j => exact h x (List.mem_of_mem_filter hx)

theorem foldl_applyDbOp_no_id (now : Int) (ops : List DbOp) :
    ∀ (store : List AnimalRec) (i : Nat), (∀ x ∈ store, x.id ≠ i) →
      ∀ x ∈ ops.foldl (applyDbOp now) store, x.id ≠ i := by
  induction ops with
  | nil => intro store i h x hx; exact h x hx
  | cons op rest ih =>
      intro store i h x hx
      exact ih (applyDbOp now store op) i
        (applyDbOp_id_preserved now store op i h) x hx

theorem foldl_applyDbOp_untouched (now : Int) (ops : List DbOp) :
    ∀ (store : List AnimalRec) (x : AnimalRec),
      (∀ op ∈ ops, op.targetId ≠ x.id) → x ∈ store →
      x ∈ ops.foldl (applyDbOp now) store := by
  induction ops with
  | nil => intro store x _ hx; exact hx
  | cons op rest ih =>
      intro store x h hx
      refine ih _ x (fun o ho => h o (List.mem_cons_of_mem op ho)) ?_
      have hne : op.targetId ≠ x.id := h op (List.mem_cons_self op rest)
      cases op with
      | update j d =>
          refine List.mem_map.mpr ⟨x, hx, ?_⟩
          rw [if_neg (fun he => hne he.symm)]
      | delete j =>
          refine List.mem_filter.mpr ⟨hx, ?_⟩
          simp only [DbOp.targetId] at hne
          have : x.id ≠ j := fun he => hne he.symm
          simpa using this

theorem foldl_applyDbOp_update (now : Int) (pre post : List DbOp)
    (store : List AnimalRec) (x : AnimalRec) (d : AnimalData)
    (hx : x ∈ store) (hpre : ∀ op ∈ pre, op.targetId ≠ x.id)
    (hpost : ∀ op ∈ post, op.targetId ≠ x.id) :
    updateFromData now d x ∈
      (pre ++ DbOp.update x.id d :: post).foldl (applyDbOp now) store := by
  rw [List.foldl_append, List.foldl_cons]
  have hx1 : x ∈ pre.foldl (applyDbOp now) store :=
    foldl_applyDbOp_untouched now pre store x hpre hx
  have hx2 : updateFromData now d x ∈
      applyDbOp now (pre.foldl (applyDbOp now) store) (.update x.id d) :=
    List.mem_map.mpr ⟨x, hx1, by rw [if_pos rfl]⟩
  have hid : (updateFromData now d x).id = x.id := rfl
  exact foldl_applyDbOp_untouched now post _ _ (fun op ho => hid ▸ hpost op ho)
    hx2

theorem foldl_applyDbOp_delete (now : Int) (pre post : List DbOp)
    (store : List AnimalRec) (i : Nat) :
    ∀ x ∈ (pre ++ DbOp.delete i :: post).foldl (applyDbOp now) store,
      x.id ≠ i := by
  rw [List.foldl_append, List.foldl_cons]
  refine foldl_applyDbOp_no_id now post _ i ?_
  intro x hx
  have := (List.mem_filter.mp hx).2
  simpa using this

theorem refreshUpdates_targets_sub (batch : List (AnimalRec × FetchResult)) :
    ((refreshUpdates batch).map DbOp.targetId).Sublist
      (batch.map (fun p => p.1.id)) := by
  induction batch with
  | nil => exact List.Sublist.refl _
  | cons p rest ih =>
      cases hp : p.2 with
      | fulfilled d =>
          have hcons : refreshUpdates (p :: rest)
              = DbOp.update p.1.id d :: refreshUpdates rest := by
            simp [refreshUpdates, List.filterMap_cons, hp]
          rw [hcons, List.map_cons, List.map_cons]
          exact List.Sublist.cons₂ _ ih
      | notFound =>
          have hcons : refreshUpdates (p :: rest) = refreshUpdates rest := by
            simp [refreshUpdates, List.filterMap_cons, hp]
          rw [hcons, List.map_cons]
          exact List.Sublist.cons _ ih
      | failed =>
          have hcons : refreshUpdates (p :: rest) = refreshUpdates rest := by
            simp [refreshUpdates, List.filterMap_cons, hp]
          rw [hcons, List.map_cons]
          exact List.Sublist.cons _ ih

theorem refreshDeletes_targets_sub (batch : List (AnimalRec × FetchResult)) :
    ((refreshDeletes batch).map DbOp.targetId).Sublist
      (batch.map (fun p => p.1.id)) := by
  induction batch with
  | nil => exact List.Sublist.refl _
  | cons p rest ih =>
      cases hp : p.2 with
      | fulfilled d =>
          have hcons : refreshDeletes (p :: rest) = refreshDeletes rest := by
            simp [refreshDeletes, List.filterMap_cons, hp]
          rw [hcons, List.map_cons]
          exact List.Sublist.cons _ ih
      | notFound =>
          have hcons : refreshDeletes (p :: rest)
              = DbOp.delete p.1.id :: refreshDeletes rest := by
            simp [refreshDeletes, List.filterMap_cons, hp]
          rw [hcons, List.map_cons, List.map_cons]
          exact List.Sublist.cons₂ _ ih
      | failed =>
          have hcons : refreshDeletes (p :: rest) = refreshDeletes rest := by
            simp [refreshDeletes, List.filterMap_cons, hp]
          rw [hcons, List.map_cons]
          exact List.Sublist.cons _ ih

theorem mem_refreshUpdates (batch : List (AnimalRec × FetchResult))
    (op : DbOp) (h : op ∈ refreshUpdates batch) :
    ∃ q ∈ batch, ∃ d, q.2 = FetchResult.fulfilled d ∧
      op = .update q.1.id d := by
  obtain ⟨q, hq, hqop⟩ := List.mem_filterMap.mp h
  cases hq2 : q.2 with
  | fulfilled d =>
      rw [hq2] at hqop
      exact ⟨q, hq, d, hq2, (Option.some_inj.mp hqop).symm⟩
  | notFound => rw [hq2] at hqop; cases hqop
  | failed => rw [hq2] at hqop; cases hqop

theorem mem_refreshDeletes (batch : List (AnimalRec × FetchResult))
    (op : DbOp) (h : op ∈ refreshDeletes batch) :
    ∃ q ∈ batch, q.2 = FetchResult.notFound ∧ op = .delete q.1.id := by
  obtain ⟨q, hq, hqop⟩ := List.mem_filterMap.mp h
  cases hq2 : q.2 with
  | fulfilled d => rw [hq2] at hqop; cases hqop
  | notFound =>
      rw [hq2] at hqop
      exact ⟨q, hq, hq2, (Option.some_inj.mp hqop).symm⟩
  | failed => rw [hq2] at hqop; cases hqop

/-- With batch record ids distinct, no queued operation other than the
record's own targets its id. -/
theorem refresh_target_unique (batch : List (AnimalRec × FetchResult))
    (hids : (batch.map (fun p => p.1.id)).Nodup)
    (p : AnimalRec × FetchResult) (hp : p ∈ batch) (op : DbOp)
    (hop : op ∈ refreshUpdates batch ++ refreshDeletes batch)
    (htgt : op.targetId = p.1.id) :
    ∃ q ∈ batch, q.1.id = p.1.id ∧
      ((∃ d, q.2 = FetchResult.fulfilled d ∧ op = .update q.1.id d) ∨
        (q.2 = FetchResult.notFound ∧ op = .delete q.1.id)) := by
  rcases List.mem_append.mp hop with hu | hd
  · obtain ⟨q, hq, d, hq2, hqop⟩ := mem_refreshUpdates batch op hu
    exact ⟨q, hq, by rw [← htgt, hqop]; rfl, Or.inl ⟨d, hq2, hqop⟩⟩
  · obtain ⟨q, hq, hq2, hqop⟩ := mem_refreshDeletes batch op hd
    exact ⟨q, hq, by rw [← htgt, hqop]; rfl, Or.inr ⟨hq2, hqop⟩⟩

/-- C3 (amended, hourly worker). For a settled batch with distinct record
ids: a fulfilled fetch leaves the record updated with the fetched fields
and `lastSeenAt = now` (so not deleted); a 404 leaves no record with its
id; any other error leaves the record exactly as it was; and the whole
batch is committed as the single grouped transaction embedded in
`runHourlyRefreshBatch`. -/
theorem hourly_refresh_revalidation (now : Int) (store : List AnimalRec)
    (batch : List (AnimalRec × FetchResult))
    (hids : (batch.map (fun p => p.1.id)).Nodup) :
    (∀ r d, (r, FetchResult.fulfilled d) ∈ batch → r ∈ store →
        updateFromData now d r ∈ runHourlyRefreshBatch now store batch) ∧
    (∀ r, (r, FetchResult.notFound) ∈ batch →
        ∀ x ∈ runHourlyRefreshBatch now store batch, x.id ≠ r.id) ∧
    (∀ r, (r, FetchResult.failed) ∈ batch → r ∈ store →
        r ∈ runHourlyRefreshBatch now store batch) := by
  have hpair : ∀ (q : AnimalRec × FetchResult), q ∈ batch →
      ∀ (p : AnimalRec × FetchResult), p ∈ batch → q.1.id = p.1.id → q = p :=
    fun q hq p hp he => List.inj_on_of_nodup_map hids hq hp he
  refine ⟨?_, ?_, ?_⟩
  · intro r d hp hr
    have hopmem : DbOp.update r.id d ∈ refreshUpdates batch :=
      List.mem_filterMap.mpr ⟨(r, .fulfilled d), hp, rfl⟩
    obtain ⟨pre, post, hsplit⟩ := List.append_of_mem hopmem
    have hops : refreshUpdates batch ++ refreshDeletes batch
        = pre ++ DbOp.update r.id d :: (post ++ refreshDeletes batch) := by
      rw [hsplit, List.append_assoc, List.cons_append]
    have htnodup : ((refreshUpdates batch).map DbOp.targetId).Nodup :=
      (refreshUpdates_targets_sub batch).nodup hids
    have hone : ∀ op ∈ pre, op.targetId ≠ r.id := by
      intro op hopre he
      have h1 : op.targetId ∈ (pre.map DbOp.targetId) :=
        List.mem_map.mpr ⟨op, hopre, rfl⟩
      have := htnodup
      rw [hsplit] at this
      simp only [List.map_append, List.map_cons] at this
      have hdisj := (List.nodup_append.mp this).2.2
      refine hdisj h1 ?_
      rw [he]
      exact List.mem_cons_self _ _
    have htwo : ∀ op ∈ post ++ refreshDeletes batch, op.targetId ≠ r.id := by
      intro op hoppost he
      rcases List.mem_append.mp hoppost with hpo | hde
      · have := htnodup
        rw [hsplit] at this
        simp only [List.map_append, List.map_cons] at this
        have hnc := (List.nodup_append.mp this).2.1
        have hnotmem := (List.nodup_cons.mp hnc).1
        have hmem : op.targetId ∈ post.map DbOp.targetId :=
          List.mem_map.mpr ⟨op, hpo, rfl⟩
        rw [he] at hmem
        exact hnotmem hmem
      · obtain ⟨q, hq, hq2, hqop⟩ := mem_refreshDeletes batch op hde
        have hqid : q.1.id = r.id := by rw [hqop] at he; exact he
        have := hpair q hq (r, .fulfilled d) hp hqid
        rw [this] at hq2
        cases hq2
    have := foldl_applyDbOp_update now pre (post ++ refreshDeletes batch)
      store r d hr hone htwo
    rw [runHourlyRefreshBatch, hops]
    exact this
  · intro r hp
    have hopmem : DbOp.delete r.id ∈ refreshDeletes batch :=
      List.mem_filterMap.mpr ⟨(r, .notFound), hp, rfl⟩
    obtain ⟨pre, post, hsplit⟩ := List.append_of_mem hopmem
    have hops : refreshUpdates batch ++ refreshDeletes batch
        = (refreshUpdates batch ++ pre) ++ DbOp.delete r.id :: post := by
      rw [hsplit, List.append_assoc]
    rw [runHourlyRefreshBatch, hops]
    exact foldl_applyDbOp_delete now _ post store r.id
  · intro r hp hr
    refine foldl_applyDbOp_untouched now _ store r ?_ hr
    intro op hop he
    obtain ⟨q, hq, hqid, hcase⟩ :=
      refresh_target_unique batch hids (r, .failed) hp op hop he
    have := hpair q hq (r, .failed) hp hqid
    rcases hcase with ⟨d, hq2, -⟩ | ⟨hq2, -⟩ <;> rw [this] at hq2 <;> cases hq2

/-- Fetched document used in concrete refresh examples. -/
def demoData : AnimalData :=
  { name := "N", url := "", type := "", age := "", gender := "", size := "",
    status := "", breeds := [], colors := 0, photos := 0, videos := 0,
    contact := 0, attributes := 0, environment := 0, city := "", state := "" }

/-- Store of three at-risk records for the refresh witnesses. -/
def demoRefreshStore : List AnimalRec :=
  [sampleRec 1 7, sampleRec 2 7, sampleRec 3 7]

/-- A settled batch: id 1 fulfilled, id 2 gone (404), id 3 errored. -/
def demoRefreshBatch : List (AnimalRec × FetchResult) :=
  [(sampleRec 1 7, FetchResult.fulfilled demoData),
   (sampleRec 2 7, FetchResult.notFound),
   (sampleRec 3 7, FetchResult.failed)]

/-- Witness for C3 (amended) at a concrete batch: the fulfilled record is
updated in place and the errored record is untouched. -/
theorem hourly_refresh_revalidation_witness :
    updateFromData 9 demoData (sampleRec 1 7) ∈
        runHourlyRefreshBatch 9 demoRefreshStore demoRefreshBatch ∧
    sampleRec 3 7 ∈ runHourlyRefreshBatch 9 demoRefreshStore demoRefreshBatch := by
  obtain ⟨h1, h2, h3⟩ :=
    hourly_refresh_revalidation 9 demoRefreshStore demoRefreshBatch (by decide)
  exact ⟨h1 (sampleRec 1 7) demoData (by decide) (by decide),
    h3 (sampleRec 3 7) (by decide) (by decide)⟩

/-- Phase 2 of the deep-refresh worker
(src/deep-refresh-worker.js lines 448-470): each at-risk record is awaited
in turn; a success issues an individual update of `lastSeenAt` only (no
grouped transaction); a 404 is only logged (`"is no longer active"`) - the
record is NOT deleted; any other error is logged. -/
def deepRefreshPhase2 (now : Int) (store : List AnimalRec)
    (batch : List (AnimalRec × FetchResult)) : List AnimalRec :=
  batch.foldl (fun st p =>
    match p.2 with
    | .fulfilled _ =>
        st.map (fun s => if s.id = p.1.id then { s with lastSeenAt := now }
          else s)
    | .notFound => st
    | .failed => st) store

/-- C3 counterexample: in the deep-refresh worker's Phase 2 (one of the
two targeted-revalidation passes the claim covers), a record whose at-risk
fetch returned 404 is still present afterwards - the claim's "a 404
response causes that record to be deleted" is false there (and a success
updates only `lastSeenAt`, not the fields, with no grouped transaction). -/
theorem deep_refresh_phase2_keeps_404_record :
    deepRefreshPhase2 9 [sampleRec 1 7] [(sampleRec 1 7, FetchResult.notFound)]
      = [sampleRec 1 7] := by decide

/-! ## C7: SeenMark writes on served pages -/

/-- An appended `(userId, animalId)` seen-table row. -/
structure SeenMark where
  userId : Nat
  animalId : Nat
deriving DecidableEq, Repr

/-- The users table: client uuid → internal id (`prisma.user`). -/
def UserTable : Type := List (String × Nat)

/-- `prisma.user.findUnique({ where: { uuid } })`. -/
def userLookup (users : UserTable) (uuid : String) : Option Nat :=
  (users.find? (fun p => p.1 == uuid)).map (fun p => p.2)

/-- `markAnimalsAsSeen` (src/discovery-worker.js lines 441-466): returns
without writing when `userId` is absent, the id list is empty, or no user
row matches the uuid; otherwise appends one `(user.id, animalId)` row per
id (`createMany` with `skipDuplicates`, so re-inserting an existing pair
is a no-op for the seen set; the embedding returns the rows written). -/
def markAnimalsAsSeen (users : UserTable) (uid : Option String)
    (animalIds : List Nat) : List SeenMark :=
  match uid with
  | none => []
  | some u =>
      if animalIds.isEmpty then []
      else
        match userLookup users u with
        | none => []
        | some internal => animalIds.map (fun i => ⟨internal, i⟩)

/-- `PAGE_SIZE` of the discovery-session handler
(src/discovery-worker.js line 435). -/
def DISCOVERY_PAGE_SIZE : Nat := 12

/-- Scenario 1 of the discovery-session handler
(src/discovery-worker.js lines 484-517): slice the stored list, return
the matching rows (`findMany`, unordered and unfiltered), and fire
`markAnimalsAsSeen(userId, pageIds)` in the background over the whole
slice. -/
def discoverySessionPage (store : List AnimalRec) (users : UserTable)
    (sessions : SessionCache) (uid : Option String) (sid : String)
    (page : Nat) : Except PageError PageOk :=
  match sessions sid with
  | none => .error .sessionExpired
  | some animalIds =>
      let totalPages :=
        (animalIds.length + DISCOVERY_PAGE_SIZE - 1) / DISCOVERY_PAGE_SIZE
      let pageIds := slicePage animalIds page DISCOVERY_PAGE_SIZE
      if pageIds.isEmpty then
        .ok { animals := [], seenWrites := [], currentPage := page,
              totalPages := totalPages, sessionId := sid }
      else
        .ok { animals := store.filter (fun a => pageIds.contains a.id),
              seenWrites := (markAnimalsAsSeen users uid pageIds).map
                (fun m => (m.userId, m.animalId)),
              currentPage := page, totalPages := totalPages,
              sessionId := sid }

/-- C7 (amended). Only the discovery-session path appends SeenMark rows:
there, when the requesting user's uuid resolves to an internal id, every
animal returned on a served page has a matching `(internal, id)` SeenMark
row appended (the handler marks the whole stored slice, a superset of the
returned ids); the geo-tiered `/api/videos` session path appends no
SeenMark rows at all. -/
theorem discovery_page_marks_seen (store : List AnimalRec)
    (users : UserTable) (sessions : SessionCache) (uid : Option String)
    (sid : String) (page : Nat) (u : String) (internal : Nat)
    (huid : uid = some u) (huser : userLookup users u = some internal) :
    (∀ o, discoverySessionPage store users sessions uid sid page = .ok o →
        ∀ a ∈ o.animals, (internal, a.id) ∈ o.seenWrites) ∧
    (∀ (store' : List AnimalRec) (sessions' : SessionCache) (sid' : String)
        (p s : Nat) (o : PageOk),
        videosSessionPage store' sessions' sid' p s = .ok o →
        o.seenWrites = []) := by
  constructor
  · intro o ho a ha
    rw [discoverySessionPage] at ho
    cases hL : sessions sid with
    | none => rw [hL] at ho; cases ho
    | some animalIds =>
        rw [hL] at ho
        simp only at ho
        by_cases hempty :
            (slicePage animalIds page DISCOVERY_PAGE_SIZE).isEmpty
        · rw [if_pos hempty] at ho
          obtain rfl := Except.ok.inj ho
          simp at ha
        · rw [if_neg hempty] at ho
          obtain rfl := Except.ok.inj ho
          have haid : a.id ∈ slicePage animalIds page DISCOVERY_PAGE_SIZE := by
            have := (List.mem_filter.mp ha).2
            simpa using this
          have hmark : markAnimalsAsSeen users uid
              (slicePage animalIds page DISCOVERY_PAGE_SIZE)
              = (slicePage animalIds page DISCOVERY_PAGE_SIZE).map
                  (fun i => ⟨internal, i⟩) := by
            rw [huid]
            simp only [markAnimalsAsSeen]
            rw [if_neg (by simpa using hempty), huser]
          rw [hmark]
          exact List.mem_map.mpr ⟨⟨internal, a.id⟩,
            List.mem_map.mpr ⟨a.id, haid, rfl⟩, rfl⟩
  · intro store' sessions' sid' p s o ho
    rw [videosSessionPage] at ho
    cases hL : sessions' sid' with
    | none => rw [hL] at ho; cases ho
    | some animalIds =>
        rw [hL] at ho
        simp only at ho
        by_cases hempty : (slicePage animalIds p s).isEmpty
        · rw [if_pos hempty] at ho
          obtain rfl := Except.ok.inj ho
          rfl
        · rw [if_neg hempty] at ho
          obtain rfl := Except.ok.inj ho
          rfl

/-- Users table for the marking witness: uuid "u" ↦ internal id 77. -/
def demoUsers : UserTable := [("u", 77)]

/-- Seen-writes of a page response (empty on the error path). -/
def exceptSeenWrites : Except PageError PageOk → List (Nat × Nat)
  | .ok o => o.seenWrites
  | .error _ => []

/-- Witness for C7 (amended): serving page 1 of the demo discovery session
for user "u" appends the SeenMark row (77, 5) for returned animal id 5. -/
theorem discovery_page_marks_seen_witness :
    (77, 5) ∈ exceptSeenWrites
      (discoverySessionPage demoStore demoUsers demoSessions (some "u") "s" 1) := by
  have h := (discovery_page_marks_seen demoStore demoUsers demoSessions
    (some "u") "s" 1 "u" 77 rfl (by decide)).1
  have heval : discoverySessionPage demoStore demoUsers demoSessions
      (some "u") "s" 1
      = .ok { animals := [sampleRec 5 0, sampleRec 3 0, sampleRec 9 0,
                sampleRec 1 0],
              seenWrites := [(77, 5), (77, 3), (77, 9), (77, 1)],
              currentPage := 1, totalPages := 1, sessionId := "s" } := by
    decide
  have hmem := h _ heval (sampleRec 5 0) (by decide)
  rw [heval]
  exact hmem

/-- C7 counterexample: the `/api/videos` session path (the session-fed
video path the claim describes) serves a nonempty page - returned ids
[5, 3, 9, 1] - while appending no SeenMark row, refuting "a SeenMark row
is appended for each returned animal id" for that path. -/
theorem videos_session_page_marks_nothing :
    (videosSessionPage demoStore demoSessions "s" 1 10).map
        (fun o => (o.animals.map AnimalRec.id, o.seenWrites))
      = Except.ok ([5, 3, 9, 1], []) := by decide

/-! ## C8: haversine clamping before `acos`

The `/api/videos` handler computes
`acos(LEAST(1.0, cos ... + sin ...))` in its hyper-local tier query
(src/api/videos.js lines 134-144: upper clamp only), while the second
variant's local-candidates query computes
`acos(LEAST(1.0, GREATEST(-1.0, ...)))` (lines 324-331: both bounds).
The SQL `LEAST`/`GREATEST` combinators are embedded over ℚ; the cosine
expression itself is the part floating-point rounding can push below -1
for near-antipodal points. -/

/-- What the hyper-local tier query feeds to `acos`:
`LEAST(1.0, x)` - no lower clamp. -/
def hyperLocalAcosArg (x : ℚ) : ℚ := min 1 x

/-- What the local-candidates query feeds to `acos`:
`LEAST(1.0, GREATEST(-1.0, x))`. -/
def localAcosArg (x : ℚ) : ℚ := min 1 (max (-1) x)

/-- C8 (bug evidence). At cosine value -2 (any value < -1, as produced by
floating-point rounding on near-antipodal inputs), the hyper-local tier
query passes -2 - outside the `acos` domain - because it clamps only the
upper bound, while the local-candidates variant clamps it to -1; so the
claim's "clamped to [-1, 1] (both bounds) before acos" fails for the
hyper-local tier query. -/
theorem hyper_local_acos_arg_not_clamped :
    hyperLocalAcosArg (-2) = -2 ∧ hyperLocalAcosArg (-2) < -1 ∧
    localAcosArg (-2) = -1 ∧
    (∀ x : ℚ, -1 ≤ localAcosArg x ∧ localAcosArg x ≤ 1) := by
  refine ⟨by norm_num [hyperLocalAcosArg], by norm_num [hyperLocalAcosArg],
    by norm_num [localAcosArg], ?_⟩
  intro x
  constructor
  · rw [localAcosArg]
    rcases le_total 1 (max (-1) x) with h | h
    · rw [min_eq_left h]; norm_num
    · rw [min_eq_right h]; exact le_max_left _ _
  · exact min_le_left _ _

/-! ## C2: the lock-guarded token manager

The source has two distinct lock-guarded `getValidToken` routines.
The discovery worker's (src/discovery-worker.js lines 79-113) reads the
cached token; on a miss it attempts the atomic `SET lockKey 1 EX 10 NX`;
a loser sleeps and recurses (re-reading the cache first); the winner
RE-READS the cache and performs the guarded credential exchange only if
the cache is still empty, stores the token with its provider TTL, and
releases the lock in a `finally` on every exit path. The hourly refresh
worker's (src/api/crons/refresh-worker.js lines 58-87) differs in the
decisive point: after winning `SET NX` it performs the exchange
IMMEDIATELY, with no post-lock cache re-check.

Both are embedded as small-step interleaving systems over the shared
Redis state (token slot, lock flag) with one program counter per caller;
each Redis command and the exchange are atomic steps: `TokStep` for the
discovery variant (with re-check), `TokStepNC` below for the crons
variant (no re-check). The 10s lock TTL itself is real time and is not
modelled: the guarantees below are those of runs where the holder
finishes within the lock's lifetime (the TTL exists to recover from a
crashed holder). -/

/-- Program counter of one `getValidToken` caller. -/
inductive TokState where
  | start
  | sawEmpty
  | acquired
  | exchanged (t : Nat)
  | cached (t : Nat)
  | done (t : Nat)
  | failedExit
deriving DecidableEq, Repr

/-- Whether a caller in this state is the current lock holder (between a
successful `SET NX` and the `finally` release). -/
def holdsLock : TokState → Bool
  | .acquired => true
  | .exchanged _ => true
  | .cached _ => true
  | _ => false

/-- Shared Redis state plus all callers: the cached token slot, the lock
flag, the number of credential exchanges started so far, and each
caller's program counter. -/
structure TokConfig where
  token : Option Nat
  lock : Bool
  exCount : Nat
  threads : List TokState
deriving DecidableEq, Repr

/-- One atomic step of caller `i` running the DISCOVERY worker's
`getValidToken` (src/discovery-worker.js lines 79-113): `recheckHit` and
the `token = none` premise of the exchange steps are that routine's
post-lock cache re-read (`token = await redis.get(...); if (token) return
token;` inside the `try`). The crons refresh worker's variant lacks this
re-check and is modelled separately by `TokStepNC`. `oracle n` is the
outcome of the (n+1)-th credential exchange: `some t` a token, `none` a
thrown exchange (whose exception propagates after the `finally` releases
the lock). -/
inductive TokStep (oracle : Nat → Option Nat) : TokConfig → TokConfig → Prop where
  | fastPath (c : TokConfig) (i : Nat) (t : Nat)
      (hi : c.threads.get? i = some .start) (htok : c.token = some t) :
      TokStep oracle c { c with threads := c.threads.set i (.done t) }
  | sawNone (c : TokConfig) (i : Nat)
      (hi : c.threads.get? i = some .start) (htok : c.token = none) :
      TokStep oracle c { c with threads := c.threads.set i .sawEmpty }
  | acquire (c : TokConfig) (i : Nat)
      (hi : c.threads.get? i = some .sawEmpty) (hl : c.lock = false) :
      TokStep oracle c { c with lock := true, threads := c.threads.set i .acquired }
  | lockBusy (c : TokConfig) (i : Nat)
      (hi : c.threads.get? i = some .sawEmpty) (hl : c.lock = true) :
      TokStep oracle c { c with threads := c.threads.set i .start }
  | recheckHit (c : TokConfig) (i : Nat) (t : Nat)
      (hi : c.threads.get? i = some .acquired) (htok : c.token = some t) :
      TokStep oracle c { c with lock := false, threads := c.threads.set i (.done t) }
  | exchangeOk (c : TokConfig) (i : Nat) (t : Nat)
      (hi : c.threads.get? i = some .acquired) (htok : c.token = none)
      (hex : oracle c.exCount = some t) :
      TokStep oracle c { c with exCount := c.exCount + 1, threads := c.threads.set i (.exchanged t) }
  | exchangeFail (c : TokConfig) (i : Nat)
      (hi : c.threads.get? i = some .acquired) (htok : c.token = none)
      (hex : oracle c.exCount = none) :
      TokStep oracle c { c with lock := false, exCount := c.exCount + 1, threads := c.threads.set i .failedExit }
  | writeToken (c : TokConfig) (i : Nat) (t : Nat)
      (hi : c.threads.get? i = some (.exchanged t)) :
      TokStep oracle c { c with token := some t, threads := c.threads.set i (.cached t) }
  | release (c : TokConfig) (i : Nat) (t : Nat)
      (hi : c.threads.get? i = some (.cached t)) :
      TokStep oracle c { c with lock := false, threads := c.threads.set i (.done t) }

/-- K callers start concurrently against an empty token cache. -/
def tokInit (K : Nat) : TokConfig :=
  { token := none, lock := false, exCount := 0,
    threads := List.replicate K .start }

/-- Configurations reachable by interleaving the K callers. -/
inductive TokReachable (oracle : Nat → Option Nat) (K : Nat) : TokConfig → Prop where
  | init : TokReachable oracle K (tokInit K)
  | step {c c' : TokConfig} (h : TokReachable oracle K c)
      (hs : TokStep oracle c c') : TokReachable oracle K c'

theorem tokGet_lt {l : List TokState} {i : Nat} {s : TokState}
    (h : l.get? i = some s) : i < l.length := by
  by_contra hc
  rw [List.get?_eq_none.mpr (by omega)] at h
  cases h

theorem tokGet_set_cases {l : List TokState} {i j : Nat} {a s : TokState}
    (hj : (l.set i a).get? j = some s) :
    (j = i ∧ s = a ∧ i < l.length) ∨ (j ≠ i ∧ l.get? j = some s) := by
  by_cases hji : j = i
  · subst hji
    by_cases hlen : j < l.length
    · rw [List.get?_set_eq_of_lt a hlen] at hj
      exact Or.inl ⟨rfl, (Option.some_inj.mp hj).symm, hlen⟩
    · rw [List.set_eq_of_length_le (by omega)] at hj
      exact absurd (tokGet_lt hj) hlen
  · refine Or.inr ⟨hji, ?_⟩
    rw [List.get?_set_ne a l (fun he => hji he.symm)] at hj
    exact hj

theorem tokGet_set_other {l : List TokState} {i j : Nat} (a : TokState)
    (hji : j ≠ i) : (l.set i a).get? j = l.get? j :=
  List.get?_set_ne a l (fun he => hji he.symm)

/-- Mutual-exclusion invariant: a holder implies the lock flag, holders
are unique, and a set lock flag has a holder. -/
def TokInvA (c : TokConfig) : Prop :=
  (∀ i s, c.threads.get? i = some s → holdsLock s = true → c.lock = true) ∧
  (∀ i j s s', c.threads.get? i = some s → c.threads.get? j = some s' →
      holdsLock s = true → holdsLock s' = true → i = j) ∧
  (c.lock = true → ∃ i s, c.threads.get? i = some s ∧ holdsLock s = true)

theorem tokInvA_init (K : Nat) : TokInvA (tokInit K) := by
  refine ⟨?_, ?_, ?_⟩
  · intro i s hi hs
    simp only [tokInit, List.get?_eq_getElem?, List.getElem?_replicate] at hi
    split at hi
    · rw [← Option.some_inj.mp hi] at hs; cases hs
    · cases hi
  · intro i j s s' hi hj hs hs'
    simp only [tokInit, List.get?_eq_getElem?, List.getElem?_replicate] at hi
    split at hi
    · rw [← Option.some_inj.mp hi] at hs; cases hs
    · cases hi
  · intro hl; cases hl

theorem tokInvA_step {oracle : Nat → Option Nat} {c c' : TokConfig}
    (hs : TokStep oracle c c') (ih : TokInvA c) : TokInvA c' := by
  obtain ⟨ih1, ih2, ih3⟩ := ih
  cases hs with
  | fastPath i t hi htok =>
      refine ⟨?_, ?_, ?_⟩
      · intro j s hj hhold
        rcases tokGet_set_cases hj with ⟨-, rfl, -⟩ | ⟨-, hold⟩
        · cases hhold
        · exact ih1 j s hold hhold
      · intro j k s s' hj hk hhold hhold'
        rcases tokGet_set_cases hj with ⟨-, rfl, -⟩ | ⟨-, holdj⟩
        · cases hhold
        rcases tokGet_set_cases hk with ⟨-, rfl, -⟩ | ⟨-, holdk⟩
        · cases hhold'
        exact ih2 j k s s' holdj holdk hhold hhold'
      · intro hl
        obtain ⟨j, s, hold, hhold⟩ := ih3 hl
        have hji : j ≠ i := fun he => by
          rw [he, hi] at hold
          rw [← Option.some_inj.mp hold] at hhold
          cases hhold
        exact ⟨j, s, by rw [tokGet_set_other _ hji]; exact hold, hhold⟩
  | sawNone i hi htok =>
      refine ⟨?_, ?_, ?_⟩
      · intro j s hj hhold
        rcases tokGet_set_cases hj with ⟨-, rfl, -⟩ | ⟨-, hold⟩
        · cases hhold
        · exact ih1 j s hold hhold
      · intro j k s s' hj hk hhold hhold'
        rcases tokGet_set_cases hj with ⟨-, rfl, -⟩ | ⟨-, holdj⟩
        · cases hhold
        rcases tokGet_set_cases hk with ⟨-, rfl, -⟩ | ⟨-, holdk⟩
        · cases hhold'
        exact ih2 j k s s' holdj holdk hhold hhold'
      · intro hl
        obtain ⟨j, s, hold, hhold⟩ := ih3 hl
        have hji : j ≠ i := fun he => by
          rw [he, hi] at hold
          rw [← Option.some_inj.mp hold] at hhold
          cases hhold
        exact ⟨j, s, by rw [tokGet_set_other _ hji]; exact hold, hhold⟩
  | acquire i hi hl =>
      have hnone : ∀ j s, c.threads.get? j = some s → holdsLock s = false := by
        intro j s hj
        by_contra hcon
        rw [Bool.not_eq_false] at hcon
        rw [ih1 j s hj hcon] at hl
        cases hl
      refine ⟨?_, ?_, ?_⟩
      · intro j s hj hhold; rfl
      · intro j k s s' hj hk hhold hhold'
        rcases tokGet_set_cases hj with ⟨hje, -, -⟩ | ⟨-, holdj⟩
        · rcases tokGet_set_cases hk with ⟨hke, -, -⟩ | ⟨-, holdk⟩
          · rw [hje, hke]
          · rw [hnone k s' holdk] at hhold'; cases hhold'
        · rw [hnone j s holdj] at hhold; cases hhold
      · intro _
        exact ⟨i, .acquired, List.get?_set_eq_of_lt _ (tokGet_lt hi), rfl⟩
  | lockBusy i hi hl =>
      refine ⟨?_, ?_, ?_⟩
      · intro j s hj hhold
        rcases tokGet_set_cases hj with ⟨-, rfl, -⟩ | ⟨-, hold⟩
        · cases hhold
        · exact ih1 j s hold hhold
      · intro j k s s' hj hk hhold hhold'
        rcases tokGet_set_cases hj with ⟨-, rfl, -⟩ | ⟨-, holdj⟩
        · cases hhold
        rcases tokGet_set_cases hk with ⟨-, rfl, -⟩ | ⟨-, holdk⟩
        · cases hhold'
        exact ih2 j k s s' holdj holdk hhold hhold'
      · intro hl'
        obtain ⟨j, s, hold, hhold⟩ := ih3 hl'
        have hji : j ≠ i := fun he => by
          rw [he, hi] at hold
          rw [← Option.some_inj.mp hold] at hhold
          cases hhold
        exact ⟨j, s, by rw [tokGet_set_other _ hji]; exact hold, hhold⟩
  | recheckHit i t hi htok =>
      have honly : ∀ j s, c.threads.get? j = some s → holdsLock s = true → j = i :=
        fun j s hj hhold => ih2 j i s .acquired hj hi hhold rfl
      refine ⟨?_, ?_, ?_⟩
      · intro j s hj hhold
        exfalso
        rcases tokGet_set_cases hj with ⟨-, rfl, -⟩ | ⟨hji, hold⟩
        · cases hhold
        · exact hji (honly j s hold hhold)
      · intro j k s s' hj hk hhold hhold'
        exfalso
        rcases tokGet_set_cases hj with ⟨-, rfl, -⟩ | ⟨hji, hold⟩
        · cases hhold
        · exact hji (honly j s hold hhold)
      · intro hl'; cases hl'
  | exchangeOk i t hi htok hex =>
      have hlock : c.lock = true := ih1 i .acquired hi rfl
      refine ⟨?_, ?_, ?_⟩
      · intro j s hj hhold; exact hlock
      · intro j k s s' hj hk hhold hhold'
        rcases tokGet_set_cases hj with ⟨hje, -, -⟩ | ⟨hji, holdj⟩
        · rcases tokGet_set_cases hk with ⟨hke, -, -⟩ | ⟨hki, holdk⟩
          · rw [hje, hke]
          · exact absurd (ih2 k i s' .acquired holdk hi hhold' rfl) hki
        · exact absurd (ih2 j i s .acquired holdj hi hhold rfl) hji
      · intro _
        exact ⟨i, .exchanged t, List.get?_set_eq_of_lt _ (tokGet_lt hi), rfl⟩
  | exchangeFail i hi htok hex =>
      have honly : ∀ j s, c.threads.get? j = some s → holdsLock s = true → j = i :=
        fun j s hj hhold => ih2 j i s .acquired hj hi hhold rfl
      refine ⟨?_, ?_, ?_⟩
      · intro j s hj hhold
        exfalso
        rcases tokGet_set_cases hj with ⟨-, rfl, -⟩ | ⟨hji, hold⟩
        · cases hhold
        · exact hji (honly j s hold hhold)
      · intro j k s s' hj hk hhold hhold'
        exfalso
        rcases tokGet_set_cases hj with ⟨-, rfl, -⟩ | ⟨hji, hold⟩
        · cases hhold
        · exact hji (honly j s hold hhold)
      · intro hl'; cases hl'
  | writeToken i t hi =>
      have hlock : c.lock = true := ih1 i (.exchanged t) hi rfl
      refine ⟨?_, ?_, ?_⟩
      · intro j s hj hhold; exact hlock
      · intro j k s s' hj hk hhold hhold'
        rcases tokGet_set_cases hj with ⟨hje, -, -⟩ | ⟨hji, holdj⟩
        · rcases tokGet_set_cases hk with ⟨hke, -, -⟩ | ⟨hki, holdk⟩
          · rw [hje, hke]
          · exact absurd (ih2 k i s' (.exchanged t) holdk hi hhold' rfl) hki
        · exact absurd (ih2 j i s (.exchanged t) holdj hi hhold rfl) hji
      · intro _
        exact ⟨i, .cached t, List.get?_set_eq_of_lt _ (tokGet_lt hi), rfl⟩
  | release i t hi =>
      have honly : ∀ j s, c.threads.get? j = some s → holdsLock s = true → j = i :=
        fun j s hj hhold => ih2 j i s (.cached t) hj hi hhold rfl
      refine ⟨?_, ?_, ?_⟩
      · intro j s hj hhold
        exfalso
        rcases tokGet_set_cases hj with ⟨-, rfl, -⟩ | ⟨hji, hold⟩
        · cases hhold
        · exact hji (honly j s hold hhold)
      · intro j k s s' hj hk hhold hhold'
        exfalso
        rcases tokGet_set_cases hj with ⟨-, rfl, -⟩ | ⟨hji, hold⟩
        · cases hhold
        · exact hji (honly j s hold hhold)
      · intro hl'; cases hl'

theorem tokInvA_reachable {oracle : Nat → Option Nat} {K : Nat}
    {c : TokConfig} (h : TokReachable oracle K c) : TokInvA c := by
  induction h with
  | init => exact tokInvA_init K
  | step hr hstep ih => exact tokInvA_step hstep ih

theorem tokGet_set_of_ne {l : List TokState} {i j : Nat} {a s : TokState}
    (hj : (l.set i a).get? j = some s) (hne : s ≠ a) : l.get? j = some s := by
  rcases tokGet_set_cases hj with ⟨-, rfl, -⟩ | ⟨-, h⟩
  · exact absurd rfl hne
  · exact h

/-- Exactly-one-exchange invariant, relative to a run in which every
attempted exchange succeeds (`oracle n = some (tv n)`): at most one
exchange has started; a cached token is the first exchange's value; a
caller holding an un-cached exchange result accounts for the one
exchange; a finished caller saw the first exchange's value; and when the
one exchange has started but the token slot is still empty, some caller
is mid-write. -/
def TokInvB (tv : Nat → Nat) (c : TokConfig) : Prop :=
  c.exCount ≤ 1 ∧
  (∀ t, c.token = some t → t = tv 0 ∧ c.exCount = 1) ∧
  (∀ i t, c.threads.get? i = some (.exchanged t) →
      t = tv 0 ∧ c.exCount = 1 ∧ c.token = none) ∧
  (∀ i t, c.threads.get? i = some (.cached t) →
      t = tv 0 ∧ c.token = some (tv 0)) ∧
  (∀ i t, c.threads.get? i = some (.done t) → t = tv 0 ∧ c.exCount = 1) ∧
  (c.exCount = 1 → c.token = none →
      ∃ i, c.threads.get? i = some (.exchanged (tv 0)))

theorem tokInvB_init (tv : Nat → Nat) (K : Nat) : TokInvB tv (tokInit K) := by
  have hrep : ∀ i s, (tokInit K).threads.get? i = some s → s = .start := by
    intro i s hi
    simp only [tokInit, List.get?_eq_getElem?, List.getElem?_replicate] at hi
    split at hi
    · exact (Option.some_inj.mp hi).symm
    · cases hi
  refine ⟨Nat.zero_le _, ?_, ?_, ?_, ?_, ?_⟩
  · intro t ht; cases ht
  · intro i t hi; cases hrep i _ hi
  · intro i t hi; cases hrep i _ hi
  · intro i t hi; cases hrep i _ hi
  · intro he; cases he

theorem tokInvB_step {oracle : Nat → Option Nat} {tv : Nat → Nat}
    (horacle : ∀ n, oracle n = some (tv n)) {c c' : TokConfig}
    (hs : TokStep oracle c c') (hA : TokInvA c) (ih : TokInvB tv c) :
    TokInvB tv c' := by
  obtain ⟨ih1, ih2, ih3, ih4, ih5, ih7⟩ := ih
  obtain ⟨hA1, hA2, hA3⟩ := hA
  cases hs with
  | fastPath i t hi htok =>
      obtain ⟨ht0, hex1⟩ := ih2 t htok
      refine ⟨ih1, ih2, ?_, ?_, ?_, ?_⟩
      · intro j t' hj
        exact ih3 j t' (tokGet_set_of_ne hj (by simp))
      · intro j t' hj
        exact ih4 j t' (tokGet_set_of_ne hj (by simp))
      · intro j t' hj
        rcases tokGet_set_cases hj with ⟨-, heq, -⟩ | ⟨-, hold⟩
        · obtain rfl := TokState.done.inj heq
          exact ⟨ht0, hex1⟩
        · exact ih5 j t' hold
      · intro he htokn
        obtain ⟨j, hjx⟩ := ih7 he htokn
        have hji : j ≠ i := fun hr => by
          rw [hr, hi] at hjx
          simp at hjx
        exact ⟨j, by rw [tokGet_set_other _ hji]; exact hjx⟩
  | sawNone i hi htok =>
      refine ⟨ih1, ih2, ?_, ?_, ?_, ?_⟩
      · intro j t' hj
        exact ih3 j t' (tokGet_set_of_ne hj (by simp))
      · intro j t' hj
        exact ih4 j t' (tokGet_set_of_ne hj (by simp))
      · intro j t' hj
        exact ih5 j t' (tokGet_set_of_ne hj (by simp))
      · intro he htokn
        obtain ⟨j, hjx⟩ := ih7 he htokn
        have hji : j ≠ i := fun hr => by
          rw [hr, hi] at hjx
          simp at hjx
        exact ⟨j, by rw [tokGet_set_other _ hji]; exact hjx⟩
  | acquire i hi hl =>
      refine ⟨ih1, ih2, ?_, ?_, ?_, ?_⟩
      · intro j t' hj
        exact ih3 j t' (tokGet_set_of_ne hj (by simp))
      · intro j t' hj
        exact ih4 j t' (tokGet_set_of_ne hj (by simp))
      · intro j t' hj
        exact ih5 j t' (tokGet_set_of_ne hj (by simp))
      · intro he htokn
        obtain ⟨j, hjx⟩ := ih7 he htokn
        have hji : j ≠ i := fun hr => by
          rw [hr, hi] at hjx
          simp at hjx
        exact ⟨j, by rw [tokGet_set_other _ hji]; exact hjx⟩
  | lockBusy i hi hl =>
      refine ⟨ih1, ih2, ?_, ?_, ?_, ?_⟩
      · intro j t' hj
        exact ih3 j t' (tokGet_set_of_ne hj (by simp))
      · intro j t' hj
        exact ih4 j t' (tokGet_set_of_ne hj (by simp))
      · intro j t' hj
        exact ih5 j t' (tokGet_set_of_ne hj (by simp))
      · intro he htokn
        obtain ⟨j, hjx⟩ := ih7 he htokn
        have hji : j ≠ i := fun hr => by
          rw [hr, hi] at hjx
          simp at hjx
        exact ⟨j, by rw [tokGet_set_other _ hji]; exact hjx⟩
  | recheckHit i t hi htok =>
      obtain ⟨ht0, hex1⟩ := ih2 t htok
      refine ⟨ih1, ih2, ?_, ?_, ?_, ?_⟩
      · intro j t' hj
        exact ih3 j t' (tokGet_set_of_ne hj (by simp))
      · intro j t' hj
        exact ih4 j t' (tokGet_set_of_ne hj (by simp))
      · intro j t' hj
        rcases tokGet_set_cases hj with ⟨-, heq, -⟩ | ⟨-, hold⟩
        · obtain rfl := TokState.done.inj heq
          exact ⟨ht0, hex1⟩
        · exact ih5 j t' hold
      · intro he htokn
        obtain ⟨j, hjx⟩ := ih7 he htokn
        have hji : j ≠ i := fun hr => by
          rw [hr, hi] at hjx
          simp at hjx
        exact ⟨j, by rw [tokGet_set_other _ hji]; exact hjx⟩
  | exchangeOk i t hi htok hex =>
      have hnot1 : c.exCount ≠ 1 := by
        intro he1
        obtain ⟨j, hjx⟩ := ih7 he1 htok
        have hji := hA2 j i (.exchanged (tv 0)) .acquired hjx hi rfl rfl
        rw [hji, hi] at hjx
        simp at hjx
      have hex0 : c.exCount = 0 := by
        have := ih1
        omega
      have ht0 : t = tv 0 := by
        rw [hex0, horacle 0] at hex
        exact (Option.some_inj.mp hex).symm
      refine ⟨?_, ?_, ?_, ?_, ?_, ?_⟩
      · show c.exCount + 1 ≤ 1
        omega
      · intro t' ht'
        rw [htok] at ht'
        cases ht'
      · intro j t' hj
        rcases tokGet_set_cases hj with ⟨-, heq, -⟩ | ⟨-, hold⟩
        · obtain rfl := TokState.exchanged.inj heq
          refine ⟨ht0, ?_, htok⟩
          show c.exCount + 1 = 1
          omega
        · obtain ⟨-, he1, -⟩ := ih3 j t' hold
          exfalso
          omega
      · intro j t' hj
        rcases tokGet_set_cases hj with ⟨-, heq, -⟩ | ⟨-, hold⟩
        · simp at heq
        · obtain ⟨-, htk⟩ := ih4 j t' hold
          rw [htok] at htk
          cases htk
      · intro j t' hj
        rcases tokGet_set_cases hj with ⟨-, heq, -⟩ | ⟨-, hold⟩
        · simp at heq
        · obtain ⟨-, he1⟩ := ih5 j t' hold
          exfalso
          omega
      · intro _ _
        refine ⟨i, ?_⟩
        rw [← ht0]
        exact List.get?_set_eq_of_lt _ (tokGet_lt hi)
  | exchangeFail i hi htok hex =>
      rw [horacle c.exCount] at hex
      cases hex
  | writeToken i t hi =>
      obtain ⟨ht0, hex1, htokn⟩ := ih3 i t hi
      refine ⟨ih1, ?_, ?_, ?_, ?_, ?_⟩
      · intro t' ht'
        obtain rfl := Option.some_inj.mp ht'
        exact ⟨ht0, hex1⟩
      · intro j t' hj
        rcases tokGet_set_cases hj with ⟨-, heq, -⟩ | ⟨hji, hold⟩
        · simp at heq
        · exact absurd (hA2 j i (.exchanged t') (.exchanged t) hold hi rfl rfl)
            hji
      · intro j t' hj
        rcases tokGet_set_cases hj with ⟨-, heq, -⟩ | ⟨-, hold⟩
        · obtain rfl := TokState.cached.inj heq
          exact ⟨ht0, by rw [ht0]⟩
        · obtain ⟨-, htk⟩ := ih4 j t' hold
          rw [htokn] at htk
          cases htk
      · intro j t' hj
        exact ih5 j t' (tokGet_set_of_ne hj (by simp))
      · intro _ htokn'
        cases htokn'
  | release i t hi =>
      obtain ⟨ht0, htokeq⟩ := ih4 i t hi
      obtain ⟨-, hex1⟩ := ih2 (tv 0) htokeq
      refine ⟨ih1, ih2, ?_, ?_, ?_, ?_⟩
      · intro j t' hj
        have hold := tokGet_set_of_ne hj (by simp)
        obtain ⟨-, -, htokn⟩ := ih3 j t' hold
        rw [htokeq] at htokn
        cases htokn
      · intro j t' hj
        exact ih4 j t' (tokGet_set_of_ne hj (by simp))
      · intro j t' hj
        rcases tokGet_set_cases hj with ⟨-, heq, -⟩ | ⟨-, hold⟩
        · obtain rfl := TokState.done.inj heq
          exact ⟨ht0, hex1⟩
        · exact ih5 j t' hold
      · intro _ htokn
        rw [htokeq] at htokn
        cases htokn

theorem tokInvB_reachable {oracle : Nat → Option Nat} {tv : Nat → Nat}
    (horacle : ∀ n, oracle n = some (tv n)) {K : Nat} {c : TokConfig}
    (h : TokReachable oracle K c) : TokInvB tv c := by
  induction h with
  | init => exact tokInvB_init tv K
  | step hr hstep ih =>
      exact tokInvB_step horacle hstep (tokInvA_reachable hr) ih

theorem tokReachable_length {oracle : Nat → Option Nat} {K : Nat}
    {c : TokConfig} (h : TokReachable oracle K c) : c.threads.length = K := by
  induction h with
  | init => exact List.length_replicate _ _
  | step hr hstep ih => cases hstep <;> simpa [List.length_set] using ih

/-- C2 (amended: the guarantee holds for the discovery worker's
`getValidToken`, the variant that re-checks the cache after acquiring the
lock; the crons refresh worker's no-recheck variant violates it, see
`crons_token_manager_double_exchange`). Over every reachable
configuration of K concurrent discovery-variant callers started against
an empty token cache: (a) once every caller has exited - returned or
propagated a failed exchange - the lock is released (so it is released on
every exit path, failure included); and (b) in a run whose exchanges
succeed, if all K ≥ 1 callers have returned then exactly one credential
exchange was performed and every caller returned that one exchange's
token value. -/
theorem token_manager_convergence (oracle : Nat → Option Nat) (K : Nat)
    (c : TokConfig) (h : TokReachable oracle K c) :
    ((∀ i s, c.threads.get? i = some s →
        (∃ t, s = .done t) ∨ s = .failedExit) → c.lock = false) ∧
    (∀ tv : Nat → Nat, (∀ n, oracle n = some (tv n)) → 0 < K →
        (∀ i s, c.threads.get? i = some s → ∃ t, s = .done t) →
        c.exCount = 1 ∧
        ∀ i s, c.threads.get? i = some s → s = .done (tv 0)) := by
  constructor
  · intro hterm
    by_contra hlock
    rw [Bool.not_eq_false] at hlock
    obtain ⟨i, s, hi, hhold⟩ := (tokInvA_reachable h).2.2 hlock
    rcases hterm i s hi with ⟨t, rfl⟩ | rfl <;> cases hhold
  · intro tv horacle hK hterm
    obtain ⟨-, -, -, -, ihB5, -⟩ := tokInvB_reachable horacle h
    have hlen : c.threads.length = K := tokReachable_length h
    have hdone : ∀ i s, c.threads.get? i = some s → s = .done (tv 0) := by
      intro i s hi
      obtain ⟨t, rfl⟩ := hterm i s hi
      obtain ⟨ht0, -⟩ := ihB5 i t hi
      rw [ht0]
    refine ⟨?_, hdone⟩
    cases hthreads : c.threads with
    | nil =>
        rw [hthreads] at hlen
        simp at hlen
        omega
    | cons s rest =>
        have h0 : c.threads.get? 0 = some s := by rw [hthreads]; rfl
        obtain ⟨t, rfl⟩ := hterm 0 s h0
        exact (ihB5 0 t h0).2

/-- A complete single-caller run: [start] → sawEmpty → acquired →
exchanged 0 → cached 0 → done 0, with the exchange oracle returning 0. -/
theorem tokDemo_reachable :
    TokReachable (fun _ => some 0) 1
      { token := some 0, lock := false, exCount := 1,
        threads := [TokState.done 0] } := by
  have h0 : TokReachable (fun _ => some 0) 1 (tokInit 1) := TokReachable.init
  have h1 := TokReachable.step h0 (TokStep.sawNone _ 0 rfl rfl)
  have h2 := TokReachable.step h1 (TokStep.acquire _ 0 rfl rfl)
  have h3 := TokReachable.step h2 (TokStep.exchangeOk _ 0 0 rfl rfl rfl)
  have h4 := TokReachable.step h3 (TokStep.writeToken _ 0 0 rfl)
  have h5 := TokReachable.step h4 (TokStep.release _ 0 0 rfl)
  exact h5

/-- Witness for C2 at the concrete single-caller run: the final
configuration has exactly one exchange, the lock released, and the caller
holding the exchanged token. -/
theorem token_manager_convergence_witness :
    ({ token := some 0, lock := false, exCount := 1,
       threads := [TokState.done 0] } : TokConfig).exCount = 1 ∧
    ({ token := some 0, lock := false, exCount := 1,
       threads := [TokState.done 0] } : TokConfig).lock = false := by
  obtain ⟨hA, hB⟩ := token_manager_convergence (fun _ => some 0) 1 _
    tokDemo_reachable
  have hterm : ∀ i s,
      ([TokState.done 0] : List TokState).get? i = some s →
      ∃ t, s = TokState.done t := by
    intro i s hi
    match i, hi with
    | 0, hi => exact ⟨0, (Option.some_inj.mp hi).symm⟩
    | n + 1, hi => exact Option.noConfusion hi
  have h2 := hB (fun _ => 0) (fun _ => rfl) (by omega) hterm
  refine ⟨h2.1, hA ?_⟩
  intro i s hi
  exact Or.inl (hterm i s hi)

/-- One atomic step of caller `i` running the CRONS refresh worker's
`getValidToken` (src/api/crons/refresh-worker.js lines 58-87). The one
difference from `TokStep`: a caller that wins `SET NX` proceeds straight
to the credential exchange - there is no post-lock cache re-read in that
routine, so the exchange steps fire from `acquired` regardless of the
token slot and there is no `recheckHit`. -/
inductive TokStepNC (oracle : Nat → Option Nat) : TokConfig → TokConfig → Prop where
  | fastPath (c : TokConfig) (i : Nat) (t : Nat)
      (hi : c.threads.get? i = some .start) (htok : c.token = some t) :
      TokStepNC oracle c { c with threads := c.threads.set i (.done t) }
  | sawNone (c : TokConfig) (i : Nat)
      (hi : c.threads.get? i = some .start) (htok : c.token = none) :
      TokStepNC oracle c { c with threads := c.threads.set i .sawEmpty }
  | acquire (c : TokConfig) (i : Nat)
      (hi : c.threads.get? i = some .sawEmpty) (hl : c.lock = false) :
      TokStepNC oracle c { c with lock := true, threads := c.threads.set i .acquired }
  | lockBusy (c : TokConfig) (i : Nat)
      (hi : c.threads.get? i = some .sawEmpty) (hl : c.lock = true) :
      TokStepNC oracle c { c with threads := c.threads.set i .start }
  | exchangeOk (c : TokConfig) (i : Nat) (t : Nat)
      (hi : c.threads.get? i = some .acquired)
      (hex : oracle c.exCount = some t) :
      TokStepNC oracle c { c with exCount := c.exCount + 1, threads := c.threads.set i (.exchanged t) }
  | exchangeFail (c : TokConfig) (i : Nat)
      (hi : c.threads.get? i = some .acquired)
      (hex : oracle c.exCount = none) :
      TokStepNC oracle c { c with lock := false, exCount := c.exCount + 1, threads := c.threads.set i .failedExit }
  | writeToken (c : TokConfig) (i : Nat) (t : Nat)
      (hi : c.threads.get? i = some (.exchanged t)) :
      TokStepNC oracle c { c with token := some t, threads := c.threads.set i (.cached t) }
  | release (c : TokConfig) (i : Nat) (t : Nat)
      (hi : c.threads.get? i = some (.cached t)) :
      TokStepNC oracle c { c with lock := false, threads := c.threads.set i (.done t) }

/-- Configurations reachable by interleaving K callers of the crons
variant. -/
inductive TokReachableNC (oracle : Nat → Option Nat) (K : Nat) : TokConfig → Prop where
  | init : TokReachableNC oracle K (tokInit K)
  | step {c c' : TokConfig} (h : TokReachableNC oracle K c)
      (hs : TokStepNC oracle c c') : TokReachableNC oracle K c'

/-- C2 counterexample, on the cited crons `getValidToken` (no post-lock
re-check): with 2 concurrent callers against an empty cache and every
exchange succeeding (`oracle n = some n`), the interleaving
"caller 0: read-empty, lock, exchange, cache, release;
 caller 1: read-empty (before 0 cached), then win the freed lock,
 exchange again, cache, release"
reaches the fully returned configuration with TWO credential exchanges
(`exCount = 2`) in which the callers return DIFFERENT token values
(`done 0` vs `done 1`) - refuting "exactly one credential exchange
occurs and all K callers observe the same token value" for that
routine. -/
theorem crons_token_manager_double_exchange :
    TokReachableNC (fun n => some n) 2
      { token := some 1, lock := false, exCount := 2,
        threads := [TokState.done 0, TokState.done 1] } ∧
    (2 : Nat) ≠ 1 ∧ TokState.done 0 ≠ TokState.done 1 := by
  refine ⟨?_, by decide, by decide⟩
  have h0 : TokReachableNC (fun n => some n) 2 (tokInit 2) :=
    TokReachableNC.init
  have h1 := TokReachableNC.step h0 (TokStepNC.sawNone _ 0 rfl rfl)
  have h2 := TokReachableNC.step h1 (TokStepNC.sawNone _ 1 rfl rfl)
  have h3 := TokReachableNC.step h2 (TokStepNC.acquire _ 0 rfl rfl)
  have h4 := TokReachableNC.step h3 (TokStepNC.exchangeOk _ 0 0 rfl rfl)
  have h5 := TokReachableNC.step h4 (TokStepNC.writeToken _ 0 0 rfl)
  have h6 := TokReachableNC.step h5 (TokStepNC.release _ 0 0 rfl)
  have h7 := TokReachableNC.step h6 (TokStepNC.acquire _ 1 rfl rfl)
  have h8 := TokReachableNC.step h7 (TokStepNC.exchangeOk _ 1 1 rfl rfl)
  have h9 := TokReachableNC.step h8 (TokStepNC.writeToken _ 1 1 rfl)
  have h10 := TokReachableNC.step h9 (TokStepNC.release _ 1 1 rfl)
  exact h10

end Pawdopt
